import Mathlib

/-!
Shallow embedding of the sudoku-cli source (`sudoku.py`): grid
serialization, problem validation, and the backtracking solver, together
with proofs of the specification claims.

Conventions:
* A grid is a list of rows of natural numbers, `0` marking an empty cell.
* Python list indexing `g[r][c]` is modelled by `cell` using `List.getD`
  with default `0`; the solver theorems are stated for well-shaped grids,
  where the default is never used.
* Python `solve` returns `False` on failure; we model the outcome as
  `Option Grid` (`none` = failure).
* The recursion of `solve` is modelled with explicit fuel; the value
  `none` of the outer `Option` in `solveAux` marks fuel exhaustion, which
  is proved unreachable for well-shaped grids (claim C7).
-/

/-- A sudoku grid: rows of cells, `0` denoting an empty cell. -/
abbrev Grid := List (List Nat)

/-- Read cell `g[r][c]`, with default `0` when out of range. -/
def cell (g : Grid) (r c : Nat) : Nat := (g.getD r []).getD c 0

/-- Write `g[r][c] = v` (the statement `self.solution[row][column] = number`). -/
def setCell (g : Grid) (r c v : Nat) : Grid := g.set r ((g.getD r []).set c v)

/-- The number of empty cells of the grid. -/
def countEmpty (g : Grid) : Nat := (g.map (fun row => row.count 0)).sum

/-- The grid is an `n` by `n` square. -/
def Shape (g : Grid) (n : Nat) : Prop := g.length = n ∧ ∀ row ∈ g, row.length = n

instance (g : Grid) (n : Nat) : Decidable (Shape g n) := by
  unfold Shape; infer_instance

/-! ### Serialization (`serialize` / `deserialize`) -/

/-- One cell rendered by Python `str`: the decimal digits of the value. -/
def serializeCell (v : Nat) : List Char := (Nat.repr v).data

/-- The function `serialize` walks the grid row by row, left to right,
appending `str(cell)` to the output string. -/
def serialize (g : Grid) : List Char :=
  (g.map (fun row => (row.map serializeCell).flatten)).flatten

/-- Python `int(character)` on one character: defined on decimal digits,
a `ValueError` (here `none`) otherwise. -/
def charToInt (c : Char) : Option Nat :=
  if '0' ≤ c ∧ c ≤ '9' then some (c.toNat - '0'.toNat) else none

/-- Helper for `chunks`: structural recursion on a bound that dominates
the length of the remaining string. -/
def chunksGo (k : Nat) : Nat → List Char → List (List Char)
  | _, [] => []
  | 0, _ => []
  | bound + 1, l =>
    if k = 0 then [] else l.take k :: chunksGo k bound (l.drop k)

/-- The slices `string[i:i+size]` for `i = 0, size, 2*size, ...` taken by
the loop of `deserialize`. -/
def chunks (k : Nat) (l : List Char) : List (List Char) :=
  chunksGo k l.length l

/-- Parse one slice into a row: `int(character)` for each character. -/
def rowVals : List Char → Option (List Nat)
  | [] => some []
  | c :: cs =>
    match charToInt c, rowVals cs with
    | some v, some vs => some (v :: vs)
    | _, _ => none

/-- Parse every slice into a row of the grid. -/
def rowsVals : List (List Char) → Option Grid
  | [] => some []
  | chunk :: rest =>
    match rowVals chunk, rowsVals rest with
    | some row, some rows => some (row :: rows)
    | _, _ => none

/-- The function `deserialize`: split the string into slices of length
`size` and parse each slice as one row. -/
def deserialize (s : List Char) (k : Nat) : Option Grid :=
  rowsVals (chunks k s)

/-! ### Integer square root -/

/-- Helper for `intSqrt`: the largest `j ≤ k` with `j * j ≤ n`. -/
def intSqrtGo (n : Nat) : Nat → Nat
  | 0 => 0
  | k + 1 => if (k + 1) * (k + 1) ≤ n then k + 1 else intSqrtGo n k

/-- The value `int(math.sqrt(n))`: the integer square root (exact for every
size a real grid can have; we do not model floating-point rounding on
astronomically large inputs).  Structurally recursive so that the kernel
can evaluate it; equal to `Nat.sqrt` (`intSqrt_eq_sqrt`). -/
def intSqrt (n : Nat) : Nat := intSqrtGo n n

/-! ### Problem validation (`_validate_problem`) -/

/-- A row of a Python problem: either an actual list of cells, or a value
of some other type (for which `isinstance(row, list)` fails). -/
inductive PyRow where
  | cells (row : List Nat)
  | nonList
deriving DecidableEq

/-- The three defects reported by `InvalidProblemError`, named as in the
specification. -/
inductive ProblemDefect where
  | sizeNotSquare
  | notListOfLists
  | notSquareGrid
deriving DecidableEq

/-- The row loop of `_validate_problem`: for each row, first the
`isinstance` check, then the length check; the first offending row wins. -/
def validateRows (n : Nat) : List PyRow → Option ProblemDefect
  | [] => none
  | PyRow.nonList :: _ => some ProblemDefect.notListOfLists
  | PyRow.cells row :: rest =>
    if row.length ≠ n then some ProblemDefect.notSquareGrid
    else validateRows n rest

/-- The method `_validate_problem`: the comparison
`math.sqrt(size) != box_size` holds exactly when `size` is not a perfect
square; afterwards the per-row checks run in order. -/
def validateProblem (p : List PyRow) : Option ProblemDefect :=
  if intSqrt p.length * intSqrt p.length ≠ p.length then
    some ProblemDefect.sizeNotSquare
  else validateRows p.length p

/-! ### The solver -/

/-- The test `value in self.solution[row]` of `_used_in_row`. -/
def usedInRow (g : Grid) (r v : Nat) : Bool := (g.getD r []).contains v

/-- The method `_used_in_column`: scan column `c` over `range(size)`. -/
def usedInColumn (g : Grid) (n c v : Nat) : Bool :=
  (List.range n).any (fun r => cell g r c == v)

/-- The method `_find_box`: the row range and the column range of the box
containing `(r, c)`, computed with floor division. -/
def findBox (b r c : Nat) : List Nat × List Nat :=
  (List.range' (r / b * b) b, List.range' (c / b * b) b)

/-- The method `_used_in_box`: scan the box containing `(r, c)`. -/
def usedInBox (g : Grid) (b r c v : Nat) : Bool :=
  ((findBox b r c).1).any (fun br =>
    ((findBox b r c).2).any (fun bc => cell g br bc == v))

/-- The method `_is_valid_move`. -/
def isValidMove (n b : Nat) (g : Grid) (r c v : Nat) : Bool :=
  !usedInRow g r v && !usedInColumn g n c v && !usedInBox g b r c v

/-- All positions `(a, x)` with `a ∈ as`, `x ∈ bs`, in nested-loop order. -/
def prodList (as bs : List Nat) : List (Nat × Nat) :=
  as.flatMap (fun a => bs.map (fun x => (a, x)))

/-- The scan order of `_next_empty_cell`: rows top to bottom, and inside a
row columns left to right. -/
def rowMajor (n : Nat) : List (Nat × Nat) :=
  prodList (List.range n) (List.range n)

/-- The method `_next_empty_cell`: the first position holding `0`, in
row-major order; `none` when the grid has no empty cell in range. -/
def nextEmptyCell (g : Grid) (n : Nat) : Option (Nat × Nat) :=
  (rowMajor n).find? (fun p => cell g p.1 p.2 == 0)

/-- The loop `for number in range(1, self.size + 1)` of `solve`: each
candidate is tried in order; a valid candidate is written and the search
recurses (`attempt`); the first recursive success is returned at once;
on recursive failure the write is undone and the next candidate is tried;
an exhausted candidate list reports failure (`return False`). -/
def tryNumbers (valid : Nat → Bool) (attempt : Nat → Option (Option Grid)) :
    List Nat → Option (Option Grid)
  | [] => some none
  | v :: vs =>
    if valid v then
      match attempt v with
      | none => none
      | some (some sol) => some (some sol)
      | some none => tryNumbers valid attempt vs
    else tryNumbers valid attempt vs

/-- The recursion of `solve`, with explicit fuel: result `none` is fuel
exhaustion (unreachable from sufficient fuel, claim C7), `some none` is
the Python return value `False`, and `some (some sol)` is a returned
solution grid. -/
def solveAux (n b : Nat) : Nat → Grid → Option (Option Grid)
  | 0, _ => none
  | fuel + 1, g =>
    match nextEmptyCell g n with
    | none => some (some g)
    | some (r, c) =>
      tryNumbers (isValidMove n b g r c)
        (fun v => solveAux n b fuel (setCell g r c v)) (List.range' 1 n)

/-- The `Solver` state: the stored problem, the two derived sizes, and the
working solution grid. -/
structure Solver where
  problem : Grid
  size : Nat
  boxSize : Nat
  solution : Grid
deriving DecidableEq

/-- The constructor `Solver.__init__`: `size = len(problem)`,
`box_size = int(math.sqrt(size))`, and the solution grid starts as a deep
copy of the problem (in this pure model, a value copy). -/
def mkSolver (problem : Grid) : Solver :=
  { problem := problem
    size := problem.length
    boxSize := intSqrt problem.length
    solution := problem }

/-- The method `Solver.solve` without validation; the fuel
`countEmpty + 1` is sufficient for every well-shaped grid (claim C7). -/
def Solver.solve (s : Solver) : Option Grid :=
  (solveAux s.size s.boxSize (countEmpty s.solution + 1) s.solution).getD none

/-- Construct a fresh solver for `g` and run the search. -/
def solveProblem (g : Grid) : Option Grid := (mkSolver g).solve

/-- The cells of a Python row, when it is a list. -/
def rowCells : PyRow → List Nat
  | PyRow.cells row => row
  | PyRow.nonList => []

/-- The method `solve(validate=...)` seen from the top-level call: optional
validation first (its failure propagates as the exception), then the
search.  Recursive calls (`solveAux`) never validate. -/
def solveCall (p : List PyRow) (withValidation : Bool) :
    Except ProblemDefect (Option Grid) :=
  if withValidation then
    match validateProblem p with
    | some e => Except.error e
    | none => Except.ok (solveProblem (p.map rowCells))
  else Except.ok (solveProblem (p.map rowCells))

/-! ### Specification-side predicates -/

/-- Row `r` of the grid. -/
def rowList (g : Grid) (r : Nat) : List Nat := g.getD r []

/-- Column `c` of the grid (rows `0..n-1`). -/
def colList (g : Grid) (n c : Nat) : List Nat :=
  (List.range n).map (fun r => cell g r c)

/-- The positions of the box containing `(r, c)`. -/
def boxPositions (b r c : Nat) : List (Nat × Nat) :=
  prodList (findBox b r c).1 (findBox b r c).2

/-- The cell values of the box containing `(r, c)`. -/
def boxList (g : Grid) (b r c : Nat) : List Nat :=
  (boxPositions b r c).map (fun q => cell g q.1 q.2)

/-- Every filled cell is consistent: its value occurs exactly once in its
row, exactly once in its column, and exactly once in its box. -/
def consistent (n b : Nat) (g : Grid) : Prop :=
  ∀ r, r < n → ∀ c, c < n → cell g r c ≠ 0 →
    (rowList g r).count (cell g r c) = 1 ∧
    (colList g n c).count (cell g r c) = 1 ∧
    (boxList g b r c).count (cell g r c) = 1

instance (n b : Nat) (g : Grid) : Decidable (consistent n b g) := by
  unfold consistent; infer_instance

/-- All cell values lie in `0..n`. -/
def cellsInRange (n : Nat) (g : Grid) : Prop :=
  ∀ r, r < n → ∀ c, c < n → cell g r c ≤ n

instance (n : Nat) (g : Grid) : Decidable (cellsInRange n g) := by
  unfold cellsInRange; infer_instance

/-- Distinct positions sharing a row, a column, or a box never hold the
same nonzero value. -/
def cellsSep (n b : Nat) (g : Grid) : Prop :=
  ∀ r c r2 c2, r < n → c < n → r2 < n → c2 < n → (r, c) ≠ (r2, c2) →
    cell g r c ≠ 0 →
    (r = r2 ∨ c = c2 ∨ (r / b = r2 / b ∧ c / b = c2 / b)) →
    cell g r c ≠ cell g r2 c2

/-- The grids reachable during the recursion of `solve` from a start grid:
the start itself, and anything reachable after one tentative valid write
into the next empty cell. -/
inductive Reaches (n b : Nat) : Grid → Grid → Prop
  | refl (g : Grid) : Reaches n b g g
  | step (g : Grid) (r c v : Nat) (g2 : Grid) :
      nextEmptyCell g n = some (r, c) →
      v ∈ List.range' 1 n →
      isValidMove n b g r c v = true →
      Reaches n b (setCell g r c v) g2 →
      Reaches n b g g2

/-- Row-major (lexicographic) order on positions. -/
def lexLt (p q : Nat × Nat) : Prop :=
  p.1 < q.1 ∨ (p.1 = q.1 ∧ p.2 < q.2)

/-! ### Basic lemmas -/

theorem intSqrtGo_eq (n : Nat) : ∀ k, Nat.sqrt n ≤ k → intSqrtGo n k = Nat.sqrt n := by
  intro k
  induction k with
  | zero =>
    intro h
    simp only [intSqrtGo]
    omega
  | succ k ih =>
    intro h
    simp only [intSqrtGo]
    by_cases hle : (k + 1) * (k + 1) ≤ n
    · have h2 : k + 1 ≤ Nat.sqrt n := Nat.le_sqrt.mpr hle
      simp only [if_pos hle]
      omega
    · have h2 : ¬(k + 1 ≤ Nat.sqrt n) := fun hcon => hle (Nat.le_sqrt.mp hcon)
      simp only [if_neg hle]
      exact ih (by omega)

theorem intSqrt_eq_sqrt (n : Nat) : intSqrt n = Nat.sqrt n :=
  intSqrtGo_eq n n (Nat.sqrt_le_self n)

theorem cell_setCell_ne (g : Grid) (r c v r2 c2 : Nat) (h : r ≠ r2 ∨ c ≠ c2) :
    cell (setCell g r c v) r2 c2 = cell g r2 c2 := by
  unfold cell setCell
  rcases Nat.lt_or_ge r g.length with hr | hr
  · by_cases hrr : r = r2
    · subst hrr
      have hc : c ≠ c2 := h.resolve_left (fun hx => hx rfl)
      simp only [List.getD_eq_getElem?_getD, List.getElem?_set_self hr, Option.getD_some]
      simp [List.getElem?_set_ne hc]
    · simp [List.getD_eq_getElem?_getD, List.getElem?_set_ne hrr]
  · rw [List.set_eq_of_length_le hr]

theorem cell_setCell_self (g : Grid) (r c v : Nat) (hr : r < g.length)
    (hc : c < (g.getD r []).length) : cell (setCell g r c v) r c = v := by
  unfold cell setCell
  simp only [List.getD_eq_getElem?_getD, List.getElem?_set_self hr, Option.getD_some]
  have hc2 : c < ((g[r]?).getD []).length := by
    simpa [List.getD_eq_getElem?_getD] using hc
  simp [List.getElem?_set_self hc2]

theorem shape_row_length {g : Grid} {n : Nat} (h : Shape g n) {r : Nat} (hr : r < n) :
    (g.getD r []).length = n := by
  obtain ⟨hlen, hrows⟩ := h
  have hrl : r < g.length := by omega
  rw [List.getD_eq_getElem?_getD, List.getElem?_eq_getElem hrl]
  exact hrows _ (List.getElem_mem hrl)

theorem shape_setCell {g : Grid} {n : Nat} (h : Shape g n) (r c v : Nat) :
    Shape (setCell g r c v) n := by
  obtain ⟨hlen, hrows⟩ := h
  rcases Nat.lt_or_ge r g.length with hr | hr
  · refine ⟨by simpa [setCell] using hlen, ?_⟩
    intro row hrow
    rcases List.mem_or_eq_of_mem_set hrow with hmem | heq
    · exact hrows _ hmem
    · subst heq
      rw [List.length_set]
      exact shape_row_length ⟨hlen, hrows⟩ (by omega)
  · unfold setCell
    rw [List.set_eq_of_length_le hr]
    exact ⟨hlen, hrows⟩

theorem rowList_length {g : Grid} {n : Nat} (h : Shape g n) {r : Nat} (hr : r < n) :
    (rowList g r).length = n := shape_row_length h hr

theorem cell_eq_rowList_getD (g : Grid) (r c : Nat) :
    cell g r c = (rowList g r).getD c 0 := rfl

theorem cell_mem_rowList {g : Grid} {n : Nat} (h : Shape g n) {r c : Nat}
    (hr : r < n) (hc : c < n) : cell g r c ∈ rowList g r := by
  have hlen : (rowList g r).length = n := rowList_length h hr
  rw [cell_eq_rowList_getD, List.getD_eq_getElem?_getD,
    List.getElem?_eq_getElem (by omega), Option.getD_some]
  exact List.getElem_mem _

theorem rowList_eq_map {g : Grid} {n : Nat} (h : Shape g n) {r : Nat} (hr : r < n) :
    rowList g r = (List.range n).map (fun c => cell g r c) := by
  have hlen : (rowList g r).length = n := rowList_length h hr
  apply List.ext_getElem
  · simp [hlen]
  · intro i h1 h2
    simp only [List.getElem_map, List.getElem_range]
    rw [cell_eq_rowList_getD, List.getD_eq_getElem?_getD, List.getElem?_eq_getElem h1,
      Option.getD_some]

theorem count_set (x v : Nat) : ∀ (l : List Nat) (c : Nat), c < l.length →
    (l.set c v).count x + (if l.getD c 0 = x then 1 else 0) =
      l.count x + (if v = x then 1 else 0) := by
  intro l
  induction l with
  | nil => intro c h; simp at h
  | cons a t ih =>
    intro c h
    cases c with
    | zero =>
      simp only [List.set, List.getD_cons_zero, List.count_cons, beq_iff_eq]
      by_cases h1 : a = x <;> by_cases h2 : v = x <;> simp [h1, h2]
    | succ c =>
      simp only [List.set, List.getD_cons_succ, List.count_cons]
      have := ih c (by simpa using Nat.lt_of_succ_lt_succ h)
      omega

theorem sum_map_set (f : List Nat → Nat) :
    ∀ (g : Grid) (r : Nat) (x : List Nat), r < g.length →
      ((g.set r x).map f).sum + f (g.getD r []) = (g.map f).sum + f x := by
  intro g
  induction g with
  | nil => intro r x h; simp at h
  | cons row rest ih =>
    intro r x h
    cases r with
    | zero => simp [List.set]; omega
    | succ r =>
      simp only [List.set, List.getD_cons_succ, List.map_cons, List.sum_cons]
      have := ih r x (by simpa using Nat.lt_of_succ_lt_succ h)
      omega

theorem countEmpty_setCell {g : Grid} {n : Nat} (h : Shape g n) {r c : Nat}
    (hr : r < n) (hc : c < n) (hz : cell g r c = 0) {v : Nat} (hv : v ≠ 0) :
    countEmpty (setCell g r c v) + 1 = countEmpty g := by
  obtain ⟨hlen, hrows⟩ := h
  have hrl : r < g.length := by omega
  have hrowlen : (g.getD r []).length = n := shape_row_length ⟨hlen, hrows⟩ hr
  unfold countEmpty setCell
  have hsum := sum_map_set (fun row => row.count 0) g r ((g.getD r []).set c v) hrl
  simp only [] at hsum
  have hcount := count_set 0 v (g.getD r []) c (by omega)
  have hz2 : (List.getD g r []).getD c 0 = 0 := hz
  rw [if_pos hz2, if_neg hv] at hcount
  omega

/-! ### Scan order and the next empty cell -/

theorem mem_prodList {as bs : List Nat} {p : Nat × Nat} :
    p ∈ prodList as bs ↔ p.1 ∈ as ∧ p.2 ∈ bs := by
  cases p with
  | mk a x =>
    simp only [prodList, List.mem_flatMap, List.mem_map, Prod.mk.injEq]
    constructor
    · rintro ⟨a2, ha2, x2, hx2, h1, h2⟩
      subst h1; subst h2; exact ⟨ha2, hx2⟩
    · rintro ⟨ha, hx⟩
      exact ⟨a, ha, x, hx, rfl, rfl⟩

theorem mem_rowMajor {n : Nat} {p : Nat × Nat} :
    p ∈ rowMajor n ↔ p.1 < n ∧ p.2 < n := by
  rw [rowMajor, mem_prodList]
  simp [List.mem_range]

theorem nextEmptyCell_some_facts {g : Grid} {n r c : Nat}
    (h : nextEmptyCell g n = some (r, c)) : r < n ∧ c < n ∧ cell g r c = 0 := by
  have hm := List.mem_of_find?_eq_some h
  have hp := List.find?_some h
  rw [mem_rowMajor] at hm
  simp only [beq_iff_eq] at hp
  exact ⟨hm.1, hm.2, hp⟩

theorem nextEmptyCell_none_iff {g : Grid} {n : Nat} :
    nextEmptyCell g n = none ↔ ∀ r, r < n → ∀ c, c < n → cell g r c ≠ 0 := by
  rw [nextEmptyCell, List.find?_eq_none]
  constructor
  · intro h r hr c hc
    have := h (r, c) (mem_rowMajor.mpr ⟨hr, hc⟩)
    simpa using this
  · intro h p hp
    rw [mem_rowMajor] at hp
    simpa using h p.1 hp.1 p.2 hp.2

theorem lexLt_asymm {p q : Nat × Nat} (h1 : lexLt p q) (h2 : lexLt q p) : False := by
  rcases h1 with h | ⟨ha, hb⟩ <;> rcases h2 with h2 | ⟨h2a, h2b⟩ <;> omega

theorem find?_eq_some_of_pairwise {α : Type} {R : α → α → Prop}
    (hasym : ∀ a b, R a b → R b a → False) (p : α → Bool) :
    ∀ (l : List α), l.Pairwise R → ∀ (a : α),
      (l.find? p = some a ↔
        a ∈ l ∧ p a = true ∧ ∀ b ∈ l, R b a → p b = false) := by
  intro l
  induction l with
  | nil => intro _ a; simp
  | cons x xs ih =>
    intro hpw a
    have hx := (List.pairwise_cons.mp hpw).1
    have hpw2 := (List.pairwise_cons.mp hpw).2
    by_cases hpx : p x = true
    · rw [List.find?_cons_of_pos _ hpx]
      constructor
      · intro h
        injection h with h
        subst h
        refine ⟨List.mem_cons_self _ _, hpx, ?_⟩
        intro b hb hR
        rcases List.mem_cons.mp hb with rfl | hb2
        · exact (hasym _ _ hR hR).elim
        · exact (hasym _ _ hR (hx b hb2)).elim
      · rintro ⟨hmem, hpa, hleast⟩
        rcases List.mem_cons.mp hmem with rfl | hmem2
        · rfl
        · have hfalse := hleast x (List.mem_cons_self _ _) (hx a hmem2)
          rw [hpx] at hfalse
          cases hfalse
    · rw [List.find?_cons_of_neg _ hpx]
      constructor
      · intro h
        obtain ⟨hmem, hpa, hleast⟩ := (ih hpw2 a).mp h
        refine ⟨List.mem_cons_of_mem _ hmem, hpa, ?_⟩
        intro b hb hR
        rcases List.mem_cons.mp hb with rfl | hb2
        · simpa using hpx
        · exact hleast b hb2 hR
      · rintro ⟨hmem, hpa, hleast⟩
        rcases List.mem_cons.mp hmem with rfl | hmem2
        · exact absurd hpa hpx
        · exact (ih hpw2 a).mpr
            ⟨hmem2, hpa, fun b hb hR => hleast b (List.mem_cons_of_mem _ hb) hR⟩

theorem pairwise_lexLt_prodList {as bs : List Nat} (ha : as.Pairwise (· < ·))
    (hb : bs.Pairwise (· < ·)) : (prodList as bs).Pairwise lexLt := by
  unfold prodList
  rw [List.pairwise_flatMap]
  constructor
  · intro a _
    rw [List.pairwise_map]
    exact hb.imp (fun hlt => Or.inr ⟨rfl, hlt⟩)
  · apply ha.imp
    intro a1 a2 hlt x hx y hy
    rw [List.mem_map] at hx hy
    obtain ⟨x1, _, hx1⟩ := hx
    obtain ⟨y1, _, hy1⟩ := hy
    subst hx1; subst hy1
    exact Or.inl hlt

theorem pairwise_rowMajor (n : Nat) : (rowMajor n).Pairwise lexLt :=
  pairwise_lexLt_prodList (List.pairwise_lt_range n) (List.pairwise_lt_range n)

theorem nodup_of_pairwise_lexLt {l : List (Nat × Nat)} (h : l.Pairwise lexLt) :
    l.Nodup := by
  apply h.imp
  intro a b hlex
  intro heq
  subst heq
  exact lexLt_asymm hlex hlex

theorem nextEmptyCell_some_iff {g : Grid} {n r c : Nat} :
    nextEmptyCell g n = some (r, c) ↔
      r < n ∧ c < n ∧ cell g r c = 0 ∧
        ∀ r2 c2, r2 < n → c2 < n → lexLt (r2, c2) (r, c) → cell g r2 c2 ≠ 0 := by
  rw [nextEmptyCell,
    find?_eq_some_of_pairwise (fun _ _ => lexLt_asymm) _ _ (pairwise_rowMajor n)]
  constructor
  · rintro ⟨hmem, hp, hleast⟩
    rw [mem_rowMajor] at hmem
    simp only [beq_iff_eq] at hp
    refine ⟨hmem.1, hmem.2, hp, ?_⟩
    intro r2 c2 h1 h2 hlex
    have := hleast (r2, c2) (mem_rowMajor.mpr ⟨h1, h2⟩) hlex
    simpa using this
  · rintro ⟨h1, h2, h3, hleast⟩
    refine ⟨mem_rowMajor.mpr ⟨h1, h2⟩, by simpa using h3, ?_⟩
    intro b hb hlex
    rw [mem_rowMajor] at hb
    have := hleast b.1 b.2 hb.1 hb.2 hlex
    simpa using this

/-! ### Membership characterizations of the validity checks -/

theorem usedInRow_iff {g : Grid} {r v : Nat} :
    usedInRow g r v = true ↔ v ∈ rowList g r := by
  simp [usedInRow, rowList]

theorem usedInColumn_iff {g : Grid} {n c v : Nat} :
    usedInColumn g n c v = true ↔ v ∈ colList g n c := by
  simp only [usedInColumn, colList, List.any_eq_true, List.mem_map, List.mem_range,
    beq_iff_eq]

theorem usedInBox_iff {g : Grid} {b r c v : Nat} :
    usedInBox g b r c v = true ↔ v ∈ boxList g b r c := by
  simp only [usedInBox, boxList, boxPositions, prodList, List.any_eq_true,
    List.mem_map, List.mem_flatMap, beq_iff_eq]
  constructor
  · rintro ⟨br, hbr, bc, hbc, hv⟩
    exact ⟨(br, bc), ⟨br, hbr, bc, hbc, rfl⟩, hv⟩
  · rintro ⟨q, ⟨br, hbr, bc, hbc, hq⟩, hv⟩
    subst hq
    exact ⟨br, hbr, bc, hbc, hv⟩

theorem mem_boxRange {b q x : Nat} (hb : 0 < b) :
    x ∈ List.range' (q * b) b ↔ x / b = q := by
  rw [List.mem_range'_1]
  constructor
  · rintro ⟨h1, h2⟩
    exact Nat.div_eq_of_lt_le h1 (by rw [Nat.succ_mul]; omega)
  · intro h
    have hdm := Nat.div_add_mod x b
    have hmod := Nat.mod_lt x hb
    rw [h, Nat.mul_comm b q] at hdm
    exact ⟨by omega, by omega⟩

theorem mem_boxPositions {b r c : Nat} (hb : 0 < b) {p : Nat × Nat} :
    p ∈ boxPositions b r c ↔ p.1 / b = r / b ∧ p.2 / b = c / b := by
  rw [boxPositions, mem_prodList]
  simp only [findBox]
  rw [mem_boxRange hb, mem_boxRange hb]

theorem self_mem_boxPositions {b r c : Nat} (hb : 0 < b) :
    (r, c) ∈ boxPositions b r c :=
  (mem_boxPositions hb).mpr ⟨rfl, rfl⟩

theorem div_lt_of_lt_sq {n b x : Nat} (hb : 0 < b) (hsq : b * b = n) (hx : x < n) :
    x / b < b := by
  rw [Nat.div_lt_iff_lt_mul hb]
  omega

theorem mem_boxPositions_lt {n b r c : Nat} (hb : 0 < b) (hsq : b * b = n)
    (hr : r < n) (hc : c < n) {p : Nat × Nat} (hp : p ∈ boxPositions b r c) :
    p.1 < n ∧ p.2 < n := by
  rw [mem_boxPositions hb] at hp
  have h1 : p.1 / b < b := hp.1 ▸ div_lt_of_lt_sq hb hsq hr
  have h2 : p.2 / b < b := hp.2 ▸ div_lt_of_lt_sq hb hsq hc
  have hm1 := Nat.div_add_mod p.1 b
  have hm2 := Nat.div_add_mod p.2 b
  have hmod1 := Nat.mod_lt p.1 hb
  have hmod2 := Nat.mod_lt p.2 hb
  constructor
  · have : b * (p.1 / b) + b ≤ b * b := by
      have := h1
      nlinarith
    omega
  · have : b * (p.2 / b) + b ≤ b * b := by nlinarith
    omega

theorem pairwise_boxPositions (b r c : Nat) :
    (boxPositions b r c).Pairwise lexLt :=
  pairwise_lexLt_prodList (List.pairwise_lt_range' _ _) (List.pairwise_lt_range' _ _)

theorem nodup_boxPositions (b r c : Nat) : (boxPositions b r c).Nodup :=
  nodup_of_pairwise_lexLt (pairwise_boxPositions b r c)

theorem length_prodList (as bs : List Nat) :
    (prodList as bs).length = as.length * bs.length := by
  induction as with
  | nil => simp [prodList]
  | cons a t ih =>
    simp only [prodList, List.flatMap_cons, List.length_append, List.length_map]
    simp only [prodList] at ih
    rw [ih, List.length_cons]
    ring

theorem length_boxPositions (b r c : Nat) : (boxPositions b r c).length = b * b := by
  rw [boxPositions, length_prodList]
  simp [findBox]

/-! ### Counting lemmas -/

theorem count_map_eq_zero {α β : Type} [DecidableEq β] {ps : List α} {f : α → β}
    {x : β} (h : ∀ q ∈ ps, f q ≠ x) : (ps.map f).count x = 0 := by
  rw [List.count_eq_zero]
  intro hmem
  rw [List.mem_map] at hmem
  obtain ⟨q, hq, hfq⟩ := hmem
  exact h q hq hfq

theorem count_map_eq_one {α β : Type} [DecidableEq β] {ps : List α} {f : α → β}
    {x : β} {p : α} (hmem : p ∈ ps) (hfp : f p = x) (hnd : ps.Nodup)
    (huniq : ∀ q ∈ ps, q ≠ p → f q ≠ x) : (ps.map f).count x = 1 := by
  induction ps with
  | nil => cases hmem
  | cons a t ih =>
    rw [List.map_cons, List.count_cons]
    rcases List.mem_cons.mp hmem with rfl | hmem2
    · have hnotin := (List.nodup_cons.mp hnd).1
      have hzero : (t.map f).count x = 0 :=
        count_map_eq_zero (fun q hq =>
          huniq q (List.mem_cons_of_mem _ hq) (fun hqp => hnotin (hqp ▸ hq)))
      have hcond : (f p == x) = true := by rw [hfp]; exact beq_self_eq_true x
      rw [hzero, if_pos hcond]
    · have hap : a ≠ p := fun h => (List.nodup_cons.mp hnd).1 (h ▸ hmem2)
      have hfa : f a ≠ x := huniq a (List.mem_cons_self _ _) hap
      have hone := ih hmem2 (List.nodup_cons.mp hnd).2
        (fun q hq hqp => huniq q (List.mem_cons_of_mem _ hq) hqp)
      have hcond : (f a == x) = false := beq_eq_false_iff_ne.mpr hfa
      rw [hone, if_neg (by simp [hcond])]

theorem two_le_count_map {α β : Type} [DecidableEq β] {ps : List α} {f : α → β}
    {x : β} {p q : α} (hp : p ∈ ps) (hq : q ∈ ps) (hpq : p ≠ q)
    (hfp : f p = x) (hfq : f q = x) : 2 ≤ (ps.map f).count x := by
  induction ps with
  | nil => cases hp
  | cons a t ih =>
    rw [List.map_cons, List.count_cons]
    rcases List.mem_cons.mp hp with rfl | hp2
    · rcases List.mem_cons.mp hq with rfl | hq2
      · exact absurd rfl hpq
      · have hx : x ∈ t.map f := List.mem_map.mpr ⟨q, hq2, hfq⟩
        have hpos := List.count_pos_iff.mpr hx
        have hcond : (f p == x) = true := by rw [hfp]; exact beq_self_eq_true x
        rw [if_pos hcond]
        omega
    · rcases List.mem_cons.mp hq with rfl | hq2
      · have hx : x ∈ t.map f := List.mem_map.mpr ⟨p, hp2, hfp⟩
        have hpos := List.count_pos_iff.mpr hx
        have hcond : (f q == x) = true := by rw [hfq]; exact beq_self_eq_true x
        rw [if_pos hcond]
        omega
      · have := ih hp2 hq2
        omega

theorem count_eq_one_of_full {l : List Nat} {n : Nat} (hlen : l.length = n)
    (helem : ∀ x ∈ l, 1 ≤ x ∧ x ≤ n) (hnd : l.Nodup) {v : Nat}
    (hv1 : 1 ≤ v) (hvn : v ≤ n) : l.count v = 1 := by
  have hsub : l.toFinset ⊆ Finset.Icc 1 n := by
    intro x hx
    rw [List.mem_toFinset] at hx
    rw [Finset.mem_Icc]
    exact helem x hx
  have hcard : (Finset.Icc 1 n).card = n := by
    rw [Nat.card_Icc]
    omega
  have hlcard : l.toFinset.card = n := by
    rw [List.toFinset_card_of_nodup hnd, hlen]
  have heq : l.toFinset = Finset.Icc 1 n :=
    Finset.eq_of_subset_of_card_le hsub (by omega)
  have hvmem : v ∈ l := by
    rw [← List.mem_toFinset, heq, Finset.mem_Icc]
    exact ⟨hv1, hvn⟩
  exact List.count_eq_one_of_mem hnd hvmem

/-! ### The candidate loop -/

theorem tryNumbers_ne_none {valid : Nat → Bool} {attempt : Nat → Option (Option Grid)}
    {cs : List Nat} (h : ∀ v ∈ cs, valid v = true → attempt v ≠ none) :
    tryNumbers valid attempt cs ≠ none := by
  induction cs with
  | nil => simp [tryNumbers]
  | cons v vs ih =>
    simp only [tryNumbers]
    by_cases hv : valid v = true
    · rw [if_pos hv]
      cases hat : attempt v with
      | none => exact absurd hat (h v (List.mem_cons_self _ _) hv)
      | some r =>
        cases r with
        | none => exact ih (fun w hw hvw => h w (List.mem_cons_of_mem _ hw) hvw)
        | some sol => simp
    · rw [if_neg hv]
      exact ih (fun w hw hvw => h w (List.mem_cons_of_mem _ hw) hvw)

theorem tryNumbers_congr {valid : Nat → Bool} {att1 att2 : Nat → Option (Option Grid)}
    {cs : List Nat} (h : ∀ v ∈ cs, valid v = true → att1 v = att2 v) :
    tryNumbers valid att1 cs = tryNumbers valid att2 cs := by
  induction cs with
  | nil => rfl
  | cons v vs ih =>
    simp only [tryNumbers]
    by_cases hv : valid v = true
    · rw [if_pos hv, if_pos hv, h v (List.mem_cons_self _ _) hv]
      exact match att2 v with
        | none => rfl
        | some (some sol) => rfl
        | some none => ih (fun w hw hvw => h w (List.mem_cons_of_mem _ hw) hvw)
    · rw [if_neg hv, if_neg hv]
      exact ih (fun w hw hvw => h w (List.mem_cons_of_mem _ hw) hvw)

theorem tryNumbers_success {valid : Nat → Bool} {attempt : Nat → Option (Option Grid)}
    {cs : List Nat} {sol : Grid} (h : tryNumbers valid attempt cs = some (some sol)) :
    ∃ v ∈ cs, valid v = true ∧ attempt v = some (some sol) := by
  induction cs with
  | nil => simp [tryNumbers] at h
  | cons v vs ih =>
    simp only [tryNumbers] at h
    by_cases hv : valid v = true
    · rw [if_pos hv] at h
      cases hat : attempt v with
      | none => rw [hat] at h; cases h
      | some r =>
        cases r with
        | none =>
          rw [hat] at h
          obtain ⟨w, hw, hvw, hatw⟩ := ih h
          exact ⟨w, List.mem_cons_of_mem _ hw, hvw, hatw⟩
        | some sol2 =>
          rw [hat] at h
          injection h with h
          injection h with h
          subst h
          exact ⟨v, List.mem_cons_self _ _, hv, hat⟩
    · rw [if_neg hv] at h
      obtain ⟨w, hw, hvw, hatw⟩ := ih h
      exact ⟨w, List.mem_cons_of_mem _ hw, hvw, hatw⟩

theorem tryNumbers_fail {valid : Nat → Bool} {attempt : Nat → Option (Option Grid)}
    {cs : List Nat} (h : ∀ v ∈ cs, valid v = true → attempt v = some none) :
    tryNumbers valid attempt cs = some none := by
  induction cs with
  | nil => rfl
  | cons v vs ih =>
    simp only [tryNumbers]
    by_cases hv : valid v = true
    · rw [if_pos hv, h v (List.mem_cons_self _ _) hv]
      exact ih (fun w hw hvw => h w (List.mem_cons_of_mem _ hw) hvw)
    · rw [if_neg hv]
      exact ih (fun w hw hvw => h w (List.mem_cons_of_mem _ hw) hvw)

theorem tryNumbers_first {valid : Nat → Bool} {attempt : Nat → Option (Option Grid)}
    {cs1 cs2 : List Nat} {v : Nat} {sol : Grid}
    (hv : valid v = true) (hat : attempt v = some (some sol))
    (hbefore : ∀ w ∈ cs1, valid w = true → attempt w = some none) :
    tryNumbers valid attempt (cs1 ++ v :: cs2) = some (some sol) := by
  induction cs1 with
  | nil =>
    simp only [List.nil_append, tryNumbers]
    rw [if_pos hv, hat]
  | cons w ws ih =>
    simp only [List.cons_append, tryNumbers]
    by_cases hw : valid w = true
    · rw [if_pos hw, hbefore w (List.mem_cons_self _ _) hw]
      exact ih (fun u hu hvu => hbefore u (List.mem_cons_of_mem _ hu) hvu)
    · rw [if_neg hw]
      exact ih (fun u hu hvu => hbefore u (List.mem_cons_of_mem _ hu) hvu)

/-! ### Fuel lemmas for the recursion -/

theorem solveAux_ne_none {n b : Nat} :
    ∀ (fuel : Nat) (g : Grid), Shape g n → countEmpty g < fuel →
      solveAux n b fuel g ≠ none := by
  intro fuel
  induction fuel with
  | zero => intro g hs h; omega
  | succ fuel ih =>
    intro g hs h
    simp only [solveAux]
    cases hne : nextEmptyCell g n with
    | none => simp
    | some p =>
      obtain ⟨r, c⟩ := p
      apply tryNumbers_ne_none
      intro v hv hvalid
      have hf := nextEmptyCell_some_facts hne
      have hv1 : 1 ≤ v := (List.mem_range'_1.mp hv).1
      have hce := countEmpty_setCell hs hf.1 hf.2.1 hf.2.2 (show v ≠ 0 by omega)
      exact ih (setCell g r c v) (shape_setCell hs r c v) (by omega)

theorem solveAux_fuel_congr {n b : Nat} :
    ∀ (fuel : Nat) (g : Grid) (fuel2 : Nat), Shape g n → countEmpty g < fuel →
      countEmpty g < fuel2 → solveAux n b fuel g = solveAux n b fuel2 g := by
  intro fuel
  induction fuel with
  | zero => intro g fuel2 hs h h2; omega
  | succ fuel ih =>
    intro g fuel2 hs h h2
    cases fuel2 with
    | zero => omega
    | succ fuel2 =>
      simp only [solveAux]
      cases hne : nextEmptyCell g n with
      | none => rfl
      | some p =>
        obtain ⟨r, c⟩ := p
        apply tryNumbers_congr
        intro v hv hvalid
        have hf := nextEmptyCell_some_facts hne
        have hv1 : 1 ≤ v := (List.mem_range'_1.mp hv).1
        have hce := countEmpty_setCell hs hf.1 hf.2.1 hf.2.2 (show v ≠ 0 by omega)
        exact ih (setCell g r c v) fuel2 (shape_setCell hs r c v) (by omega) (by omega)

theorem solveAux_success_props {n b : Nat} :
    ∀ (fuel : Nat) (g sol : Grid), solveAux n b fuel g = some (some sol) →
      nextEmptyCell sol n = none ∧
      (∀ r c, cell g r c ≠ 0 → cell sol r c = cell g r c) ∧
      (Shape g n → Shape sol n) ∧
      Reaches n b g sol := by
  intro fuel
  induction fuel with
  | zero => intro g sol h; simp [solveAux] at h
  | succ fuel ih =>
    intro g sol h
    simp only [solveAux] at h
    cases hne : nextEmptyCell g n with
    | none =>
      rw [hne] at h
      simp only [Option.some.injEq] at h
      subst h
      exact ⟨hne, fun r c hc => rfl, fun hs => hs, Reaches.refl g⟩
    | some p =>
      obtain ⟨r, c⟩ := p
      rw [hne] at h
      simp only [] at h
      obtain ⟨v, hv, hvalid, hat⟩ := tryNumbers_success h
      have hf := nextEmptyCell_some_facts hne
      obtain ⟨hterm, hpres, hshape, hreach⟩ := ih (setCell g r c v) sol hat
      refine ⟨hterm, ?_, ?_, ?_⟩
      · intro r2 c2 hc2
        have hne2 : r ≠ r2 ∨ c ≠ c2 := by
          by_contra hcon
          push_neg at hcon
          obtain ⟨h1, h2⟩ := hcon
          subst h1; subst h2
          exact hc2 hf.2.2
        have heq : cell (setCell g r c v) r2 c2 = cell g r2 c2 :=
          cell_setCell_ne g r c v r2 c2 hne2
        rw [← heq]
        exact hpres r2 c2 (by rw [heq]; exact hc2)
      · intro hs
        exact hshape (shape_setCell hs r c v)
      · exact Reaches.step g r c v sol hne hv hvalid hreach

/-! ### The search invariant -/

theorem cell_mem_colList {g : Grid} {n c : Nat} {r2 : Nat} (hr2 : r2 < n) :
    cell g r2 c ∈ colList g n c :=
  List.mem_map.mpr ⟨r2, List.mem_range.mpr hr2, rfl⟩

theorem cell_mem_boxList {g : Grid} {b r c : Nat} {p : Nat × Nat}
    (hp : p ∈ boxPositions b r c) : cell g p.1 p.2 ∈ boxList g b r c :=
  List.mem_map.mpr ⟨p, hp, rfl⟩

theorem isValidMove_not_mem {n b : Nat} {g : Grid} {r c v : Nat}
    (h : isValidMove n b g r c v = true) :
    v ∉ rowList g r ∧ v ∉ colList g n c ∧ v ∉ boxList g b r c := by
  simp only [isValidMove, Bool.and_eq_true, Bool.not_eq_true'] at h
  obtain ⟨⟨h1, h2⟩, h3⟩ := h
  refine ⟨fun hm => ?_, fun hm => ?_, fun hm => ?_⟩
  · have hx := usedInRow_iff.mpr hm
    rw [h1] at hx
    simp at hx
  · have hx := usedInColumn_iff.mpr hm
    rw [h2] at hx
    simp at hx
  · have hx := usedInBox_iff.mpr hm
    rw [h3] at hx
    simp at hx

theorem sep_from_valid {n b : Nat} {g : Grid} {r c v : Nat}
    (hs : Shape g n) (hb : 0 < b)
    (hvalid : isValidMove n b g r c v = true)
    {r2 c2 : Nat} (hr2 : r2 < n) (hc2 : c2 < n)
    (hshare : r = r2 ∨ c = c2 ∨ (r / b = r2 / b ∧ c / b = c2 / b)) :
    cell g r2 c2 ≠ v := by
  obtain ⟨hrow, hcol, hbox⟩ := isValidMove_not_mem hvalid
  rcases hshare with h | h | ⟨h1, h2⟩
  · subst h
    intro heq
    exact hrow (heq ▸ cell_mem_rowList hs hr2 hc2)
  · subst h
    intro heq
    exact hcol (heq ▸ cell_mem_colList hr2)
  · intro heq
    have hm : (r2, c2) ∈ boxPositions b r c :=
      (mem_boxPositions hb).mpr ⟨h1.symm, h2.symm⟩
    exact hbox (heq ▸ cell_mem_boxList hm)

theorem cellsSep_setCell {n b : Nat} {g : Grid} {r c v : Nat}
    (hs : Shape g n) (hb : 0 < b) (hr : r < n) (hc : c < n)
    (hz : cell g r c = 0) (hv1 : 1 ≤ v)
    (hvalid : isValidMove n b g r c v = true) (hsep : cellsSep n b g) :
    cellsSep n b (setCell g r c v) := by
  have hrg : r < g.length := by
    have := hs.1
    omega
  have hcl : c < (g.getD r []).length := by
    rw [shape_row_length hs hr]
    exact hc
  intro r1 c1 r2 c2 hr1 hc1 hr2 hc2 hne hnz hshare
  by_cases hp1 : r = r1 ∧ c = c1
  · obtain ⟨e1, e2⟩ := hp1
    subst e1
    subst e2
    have hne2 : r ≠ r2 ∨ c ≠ c2 := by
      by_contra hcon
      push_neg at hcon
      exact hne (by rw [hcon.1, hcon.2])
    rw [cell_setCell_self g r c v hrg hcl, cell_setCell_ne g r c v r2 c2 hne2]
    intro heq
    exact sep_from_valid hs hb hvalid hr2 hc2 hshare heq.symm
  · by_cases hp2 : r = r2 ∧ c = c2
    · obtain ⟨e1, e2⟩ := hp2
      subst e1
      subst e2
      have hne1 : r ≠ r1 ∨ c ≠ c1 := by
        by_contra hcon
        push_neg at hcon
        exact hp1 ⟨hcon.1, hcon.2⟩
      rw [cell_setCell_self g r c v hrg hcl, cell_setCell_ne g r c v r1 c1 hne1]
      have hshare2 : r = r1 ∨ c = c1 ∨ (r / b = r1 / b ∧ c / b = c1 / b) := by
        rcases hshare with h | h | ⟨h1, h2⟩
        · exact Or.inl h.symm
        · exact Or.inr (Or.inl h.symm)
        · exact Or.inr (Or.inr ⟨h1.symm, h2.symm⟩)
      exact sep_from_valid hs hb hvalid hr1 hc1 hshare2
    · have hne1 : r ≠ r1 ∨ c ≠ c1 := by
        by_contra hcon
        push_neg at hcon
        exact hp1 ⟨hcon.1, hcon.2⟩
      have hne2 : r ≠ r2 ∨ c ≠ c2 := by
        by_contra hcon
        push_neg at hcon
        exact hp2 ⟨hcon.1, hcon.2⟩
      rw [cell_setCell_ne g r c v r1 c1 hne1, cell_setCell_ne g r c v r2 c2 hne2]
      rw [cell_setCell_ne g r c v r1 c1 hne1] at hnz
      exact hsep r1 c1 r2 c2 hr1 hc1 hr2 hc2 hne hnz hshare

theorem consistent_iff_cellsSep {n b : Nat} {g : Grid} (hs : Shape g n)
    (hb : 0 < b) (hsq : b * b = n) : consistent n b g ↔ cellsSep n b g := by
  constructor
  · intro hcons r1 c1 r2 c2 hr1 hc1 hr2 hc2 hne hnz hshare heq
    rcases hshare with h | h | ⟨h1, h2⟩
    · subst h
      have hcount := (hcons r1 hr1 c1 hc1 hnz).1
      have hc1c2 : c1 ≠ c2 := fun hcc => hne (by rw [hcc])
      have h2le : 2 ≤ (rowList g r1).count (cell g r1 c1) := by
        rw [rowList_eq_map hs hr1]
        exact two_le_count_map (List.mem_range.mpr hc1) (List.mem_range.mpr hc2)
          hc1c2 rfl heq.symm
      omega
    · subst h
      have hcount := (hcons r1 hr1 c1 hc1 hnz).2.1
      have hr1r2 : r1 ≠ r2 := fun hrr => hne (by rw [hrr])
      have h2le : 2 ≤ (colList g n c1).count (cell g r1 c1) :=
        two_le_count_map (List.mem_range.mpr hr1) (List.mem_range.mpr hr2)
          hr1r2 rfl heq.symm
      omega
    · have hcount := (hcons r1 hr1 c1 hc1 hnz).2.2
      have hm1 : (r1, c1) ∈ boxPositions b r1 c1 := self_mem_boxPositions hb
      have hm2 : (r2, c2) ∈ boxPositions b r1 c1 :=
        (mem_boxPositions hb).mpr ⟨h1.symm, h2.symm⟩
      have h2le : 2 ≤ (boxList g b r1 c1).count (cell g r1 c1) :=
        two_le_count_map hm1 hm2 hne rfl heq.symm
      omega
  · intro hsep r hr c hc hnz
    refine ⟨?_, ?_, ?_⟩
    · rw [rowList_eq_map hs hr]
      apply count_map_eq_one (List.mem_range.mpr hc) rfl (List.nodup_range n)
      intro q hq hqc heq
      have hq2 : q < n := List.mem_range.mp hq
      have hpairne : (r, c) ≠ (r, q) := fun hp => hqc ((Prod.ext_iff.mp hp).2).symm
      exact hsep r c r q hr hc hr hq2 hpairne hnz (Or.inl rfl) heq.symm
    · simp only [colList]
      apply count_map_eq_one (List.mem_range.mpr hr) rfl (List.nodup_range n)
      intro q hq hqr heq
      have hq2 : q < n := List.mem_range.mp hq
      have hpairne : (r, c) ≠ (q, c) := fun hp => hqr ((Prod.ext_iff.mp hp).1).symm
      exact hsep r c q c hr hc hq2 hc hpairne hnz (Or.inr (Or.inl rfl)) heq.symm
    · simp only [boxList]
      refine @count_map_eq_one (Nat × Nat) Nat inferInstance (boxPositions b r c)
        (fun q => cell g q.1 q.2) (cell g r c) (r, c) (self_mem_boxPositions hb) rfl
        (nodup_boxPositions b r c) ?_
      intro q hq hqp heq
      obtain ⟨q1, q2⟩ := q
      have hbound := mem_boxPositions_lt hb hsq hr hc hq
      have hquot := (mem_boxPositions hb).mp hq
      exact hsep r c q1 q2 hr hc hbound.1 hbound.2 (Ne.symm hqp) hnz
        (Or.inr (Or.inr ⟨hquot.1.symm, hquot.2.symm⟩)) heq.symm

theorem reaches_invariant {n b : Nat} (hsq : b * b = n) :
    ∀ {g g2 : Grid}, Reaches n b g g2 → Shape g n → cellsSep n b g →
      cellsInRange n g → Shape g2 n ∧ cellsSep n b g2 ∧ cellsInRange n g2 := by
  intro g g2 hre
  induction hre with
  | refl g => exact fun hs hsep hrange => ⟨hs, hsep, hrange⟩
  | step g r c v g2 hne hv hvalid hre ih =>
    intro hs hsep hrange
    have hf := nextEmptyCell_some_facts hne
    have hb : 0 < b := by
      rcases Nat.eq_zero_or_pos b with h0 | hpos
      · subst h0
        simp at hsq
        omega
      · exact hpos
    have hv1 : 1 ≤ v := (List.mem_range'_1.mp hv).1
    have hvn : v ≤ n := by
      have := (List.mem_range'_1.mp hv).2
      omega
    apply ih (shape_setCell hs r c v)
      (cellsSep_setCell hs hb hf.1 hf.2.1 hf.2.2 hv1 hvalid hsep)
    intro r2 hr2 c2 hc2
    by_cases hpos2 : r2 = r ∧ c2 = c
    · obtain ⟨e1, e2⟩ := hpos2
      subst e1
      subst e2
      rw [cell_setCell_self g r2 c2 v (by have := hs.1; omega)
        (by rw [shape_row_length hs hf.1]; exact hf.2.1)]
      exact hvn
    · have hne2 : r ≠ r2 ∨ c ≠ c2 := by
        by_contra hcon
        push_neg at hcon
        exact hpos2 ⟨hcon.1.symm, hcon.2.symm⟩
      rw [cell_setCell_ne g r c v r2 c2 hne2]
      exact hrange r2 hr2 c2 hc2

theorem solveProblem_some_iff {g sol : Grid} :
    solveProblem g = some sol ↔
      solveAux g.length (intSqrt g.length) (countEmpty g + 1) g = some (some sol) := by
  simp only [solveProblem, mkSolver, Solver.solve]
  cases h : solveAux g.length (intSqrt g.length) (countEmpty g + 1) g with
  | none => simp
  | some r => cases r <;> simp

/-! ### Top-level equations for the search -/

theorem setCell_length (g : Grid) (r c v : Nat) :
    (setCell g r c v).length = g.length := by
  simp [setCell]

theorem solveAux_eq_some_solveProblem {g2 : Grid} {n b fuel : Nat}
    (hn : n = g2.length) (hb : b = intSqrt n) (hs : Shape g2 n)
    (hfuel : countEmpty g2 < fuel) :
    solveAux n b fuel g2 = some (solveProblem g2) := by
  subst hb
  subst hn
  have hcon := @solveAux_fuel_congr g2.length (intSqrt g2.length) fuel g2
    (countEmpty g2 + 1) hs hfuel (by omega)
  rw [hcon]
  have hnn := @solveAux_ne_none g2.length (intSqrt g2.length) (countEmpty g2 + 1) g2
    hs (by omega)
  cases h : solveAux g2.length (intSqrt g2.length) (countEmpty g2 + 1) g2 with
  | none => exact absurd h hnn
  | some x =>
    simp only [solveProblem, mkSolver, Solver.solve]
    rw [h, Option.getD_some]

theorem solveProblem_terminal {g : Grid}
    (h : nextEmptyCell g g.length = none) : solveProblem g = some g := by
  simp only [solveProblem, mkSolver, Solver.solve, solveAux, h]
  rfl

theorem solveProblem_step {g : Grid} {n b r c : Nat}
    (hn : n = g.length) (hb : b = intSqrt n)
    (hne : nextEmptyCell g n = some (r, c)) :
    solveProblem g =
      (tryNumbers (isValidMove n b g r c)
        (fun v => solveAux n b (countEmpty g) (setCell g r c v))
        (List.range' 1 n)).getD none := by
  subst hb
  subst hn
  simp only [solveProblem, mkSolver, Solver.solve, solveAux, hne]

theorem solveProblem_step_attempts {g : Grid} {n b r c : Nat}
    (hn : n = g.length) (hb : b = intSqrt n) (hs : Shape g n)
    (hne : nextEmptyCell g n = some (r, c)) {v : Nat}
    (hv : v ∈ List.range' 1 n) :
    solveAux n b (countEmpty g) (setCell g r c v) =
      some (solveProblem (setCell g r c v)) := by
  have hf := nextEmptyCell_some_facts hne
  have hv1 : 1 ≤ v := (List.mem_range'_1.mp hv).1
  have hce := countEmpty_setCell hs hf.1 hf.2.1 hf.2.2 (show v ≠ 0 by omega)
  apply solveAux_eq_some_solveProblem
  · rw [setCell_length]
    exact hn
  · exact hb
  · exact shape_setCell hs r c v
  · omega

theorem solveProblem_success {g sol : Grid} {n b : Nat}
    (hn : n = g.length) (hb : b = intSqrt n) (hs : Shape g n) (hsq : b * b = n)
    (hrange : cellsInRange n g) (hsep : cellsSep n b g)
    (hsol : solveProblem g = some sol) :
    Shape sol n ∧ (∀ r, r < n → ∀ c, c < n → cell sol r c ≠ 0) ∧
      cellsSep n b sol ∧ cellsInRange n sol ∧
      (∀ r c, cell g r c ≠ 0 → cell sol r c = cell g r c) := by
  have hsolA := solveProblem_some_iff.mp hsol
  rw [← hn] at hsolA
  rw [← hb] at hsolA
  obtain ⟨hterm, hpres, _, hreach⟩ := solveAux_success_props _ g sol hsolA
  obtain ⟨hs2, hsep2, hrange2⟩ := reaches_invariant hsq hreach hs hsep hrange
  refine ⟨hs2, ?_, hsep2, hrange2, hpres⟩
  exact nextEmptyCell_none_iff.mp hterm

theorem full_grid_counts {sol : Grid} {n b : Nat} (hs : Shape sol n)
    (hsq : b * b = n) (hb : 0 < b)
    (hfull : ∀ r, r < n → ∀ c, c < n → cell sol r c ≠ 0)
    (hrange : cellsInRange n sol) (hsep : cellsSep n b sol) :
    (∀ r, r < n → ∀ v, 1 ≤ v → v ≤ n → (rowList sol r).count v = 1) ∧
    (∀ c, c < n → ∀ v, 1 ≤ v → v ≤ n → (colList sol n c).count v = 1) ∧
    (∀ r, r < n → ∀ c, c < n → ∀ v, 1 ≤ v → v ≤ n →
      (boxList sol b r c).count v = 1) := by
  refine ⟨?_, ?_, ?_⟩
  · intro r hr v hv1 hvn
    apply count_eq_one_of_full (rowList_length hs hr) ?_ ?_ hv1 hvn
    · intro x hx
      rw [rowList_eq_map hs hr, List.mem_map] at hx
      obtain ⟨c, hc, hcx⟩ := hx
      have hc2 : c < n := List.mem_range.mp hc
      subst hcx
      have h1 := hfull r hr c hc2
      have h2 := hrange r hr c hc2
      omega
    · rw [rowList_eq_map hs hr]
      apply List.Nodup.map_on ?_ (List.nodup_range n)
      intro c1 hc1 c2 hc2 heq
      by_contra hne
      have hp : (r, c1) ≠ (r, c2) := fun hp => hne (Prod.ext_iff.mp hp).2
      exact hsep r c1 r c2 hr (List.mem_range.mp hc1) hr (List.mem_range.mp hc2)
        hp (hfull r hr c1 (List.mem_range.mp hc1)) (Or.inl rfl) heq
  · intro c hc v hv1 hvn
    have hlen : (colList sol n c).length = n := by simp [colList]
    apply count_eq_one_of_full hlen ?_ ?_ hv1 hvn
    · intro x hx
      rw [colList, List.mem_map] at hx
      obtain ⟨r, hr, hrx⟩ := hx
      have hr2 : r < n := List.mem_range.mp hr
      subst hrx
      have h1 := hfull r hr2 c hc
      have h2 := hrange r hr2 c hc
      omega
    · rw [colList]
      apply List.Nodup.map_on ?_ (List.nodup_range n)
      intro r1 hr1 r2 hr2 heq
      by_contra hne
      have hp : (r1, c) ≠ (r2, c) := fun hp => hne (Prod.ext_iff.mp hp).1
      exact hsep r1 c r2 c (List.mem_range.mp hr1) hc (List.mem_range.mp hr2) hc
        hp (hfull r1 (List.mem_range.mp hr1) c hc) (Or.inr (Or.inl rfl)) heq
  · intro r hr c hc v hv1 hvn
    have hlen : (boxList sol b r c).length = n := by
      rw [boxList, List.length_map, length_boxPositions, hsq]
    apply count_eq_one_of_full hlen ?_ ?_ hv1 hvn
    · intro x hx
      rw [boxList, List.mem_map] at hx
      obtain ⟨q, hq, hqx⟩ := hx
      have hqb := mem_boxPositions_lt hb hsq hr hc hq
      subst hqx
      have h1 := hfull q.1 hqb.1 q.2 hqb.2
      have h2 := hrange q.1 hqb.1 q.2 hqb.2
      omega
    · rw [boxList]
      apply List.Nodup.map_on ?_ (nodup_boxPositions b r c)
      intro q1 hq1 q2 hq2 heq
      by_contra hne
      have hb1 := mem_boxPositions_lt hb hsq hr hc hq1
      have hb2 := mem_boxPositions_lt hb hsq hr hc hq2
      have hquot1 := (mem_boxPositions hb).mp hq1
      have hquot2 := (mem_boxPositions hb).mp hq2
      have hp : (q1.1, q1.2) ≠ (q2.1, q2.2) := by
        intro hp
        apply hne
        obtain ⟨a1, a2⟩ := q1
        obtain ⟨b1, b2⟩ := q2
        exact hp
      exact hsep q1.1 q1.2 q2.1 q2.2 hb1.1 hb1.2 hb2.1 hb2.2 hp
        (hfull q1.1 hb1.1 q1.2 hb1.2)
        (Or.inr (Or.inr ⟨by rw [hquot1.1, hquot2.1], by rw [hquot1.2, hquot2.2]⟩))
        heq

/-! ### Serialization lemmas -/

theorem chunksGo_eq_of_le {k : Nat} (hk : k ≠ 0) :
    ∀ (b1 : Nat) (b2 : Nat) (l : List Char), l.length ≤ b1 → l.length ≤ b2 →
      chunksGo k b1 l = chunksGo k b2 l := by
  intro b1
  induction b1 with
  | zero =>
    intro b2 l h1 h2
    have hnil : l = [] := List.eq_nil_of_length_eq_zero (by omega)
    subst hnil
    cases b2 <;> rfl
  | succ b1 ih =>
    intro b2 l h1 h2
    cases l with
    | nil => cases b2 <;> rfl
    | cons x xs =>
      cases b2 with
      | zero => simp at h2
      | succ b2 =>
        simp only [chunksGo, if_neg hk]
        congr 1
        apply ih
        · simp only [List.length_drop, List.length_cons]
          simp only [List.length_cons] at h1
          omega
        · simp only [List.length_drop, List.length_cons]
          simp only [List.length_cons] at h2
          omega

theorem chunks_cons {k : Nat} {l : List Char} (hl : l ≠ []) (hk : k ≠ 0) :
    chunks k l = l.take k :: chunks k (l.drop k) := by
  cases l with
  | nil => exact absurd rfl hl
  | cons x xs =>
    show chunksGo k (xs.length + 1) (x :: xs) = _
    simp only [chunksGo, if_neg hk]
    congr 1
    apply chunksGo_eq_of_le hk
    · simp only [List.length_drop, List.length_cons]
      omega
    · exact Nat.le_refl _

theorem ceilDiv_step {len k : Nat} (hlen : 1 ≤ len) (hk : 1 ≤ k) :
    (len - k + k - 1) / k + 1 = (len + k - 1) / k := by
  rcases le_or_lt len k with hle | hgt
  · have h1 : len - k = 0 := by omega
    rw [h1]
    have h2 : (0 + k - 1) / k = 0 := Nat.div_eq_of_lt (by omega)
    rw [h2]
    have h3 : (len + k - 1) / k = 1 := by
      apply Nat.div_eq_of_lt_le <;> omega
    omega
  · have h1 : len - k + k - 1 + k = len + k - 1 := by omega
    rw [← h1, Nat.add_div_right _ (by omega)]

theorem length_chunks {k : Nat} (hk : k ≠ 0) :
    ∀ (m : Nat) (l : List Char), l.length ≤ m →
      (chunks k l).length = (l.length + k - 1) / k := by
  intro m
  induction m with
  | zero =>
    intro l h
    have hnil : l = [] := List.eq_nil_of_length_eq_zero (by omega)
    subst hnil
    show (0 : Nat) = (0 + k - 1) / k
    rw [Nat.div_eq_of_lt (by omega)]
  | succ m ih =>
    intro l h
    rcases l with _ | ⟨x, xs⟩
    · show (0 : Nat) = (0 + k - 1) / k
      rw [Nat.div_eq_of_lt (by omega)]
    · have hlen2 : ((x :: xs).drop k).length ≤ m := by
        rw [List.length_drop]
        have hx : (x :: xs).length = xs.length + 1 := List.length_cons x xs
        omega
      rw [chunks_cons (by simp) hk, List.length_cons]
      rw [ih ((x :: xs).drop k) hlen2]
      simp only [List.length_drop]
      exact ceilDiv_step (by simp) (by omega)

theorem chunks_getD {k : Nat} (hk : k ≠ 0) :
    ∀ (m : Nat) (l : List Char), l.length ≤ m →
      ∀ r, (chunks k l).getD r [] = (l.drop (r * k)).take k := by
  intro m
  induction m with
  | zero =>
    intro l h r
    have hnil : l = [] := List.eq_nil_of_length_eq_zero (by omega)
    subst hnil
    simp [chunks, chunksGo]
  | succ m ih =>
    intro l h r
    rcases l with _ | ⟨x, xs⟩
    · simp [chunks, chunksGo]
    · rw [chunks_cons (by simp) hk]
      cases r with
      | zero => simp
      | succ r =>
        have hlen2 : ((x :: xs).drop k).length ≤ m := by
          rw [List.length_drop]
          have hx : (x :: xs).length = xs.length + 1 := List.length_cons x xs
          omega
        simp only [List.getD_cons_succ]
        rw [ih ((x :: xs).drop k) hlen2 r]
        rw [List.drop_drop]
        have harith : k + r * k = (r + 1) * k := by ring
        rw [harith]

theorem mem_chunks_subset {k : Nat} (hk : k ≠ 0) :
    ∀ (m : Nat) (l : List Char), l.length ≤ m →
      ∀ ch ∈ chunks k l, ∀ c ∈ ch, c ∈ l := by
  intro m
  induction m with
  | zero =>
    intro l h ch hch
    have hnil : l = [] := List.eq_nil_of_length_eq_zero (by omega)
    subst hnil
    simp [chunks, chunksGo] at hch
  | succ m ih =>
    intro l h ch hch c hc
    rcases l with _ | ⟨x, xs⟩
    · simp [chunks, chunksGo] at hch
    · rw [chunks_cons (by simp) hk] at hch
      rcases List.mem_cons.mp hch with rfl | hch2
      · exact List.mem_of_mem_take hc
      · have hlen2 : ((x :: xs).drop k).length ≤ m := by
          rw [List.length_drop]
          have hx : (x :: xs).length = xs.length + 1 := List.length_cons x xs
          omega
        exact List.mem_of_mem_drop (ih ((x :: xs).drop k) hlen2 ch hch2 c hc)

theorem charToInt_digit {c : Char} (h1 : '0' ≤ c) (h2 : c ≤ '9') :
    charToInt c = some (c.toNat - '0'.toNat) := by
  simp [charToInt, h1, h2]

theorem rowVals_digits {cs : List Char} (h : ∀ c ∈ cs, '0' ≤ c ∧ c ≤ '9') :
    rowVals cs = some (cs.map (fun c => c.toNat - '0'.toNat)) := by
  induction cs with
  | nil => rfl
  | cons c cs ih =>
    have hc := h c (List.mem_cons_self _ _)
    simp only [rowVals, charToInt_digit hc.1 hc.2,
      ih (fun x hx => h x (List.mem_cons_of_mem _ hx)), List.map_cons]

theorem rowsVals_digits {chs : List (List Char)}
    (h : ∀ ch ∈ chs, ∀ c ∈ ch, '0' ≤ c ∧ c ≤ '9') :
    rowsVals chs =
      some (chs.map (fun ch => ch.map (fun c => c.toNat - '0'.toNat))) := by
  induction chs with
  | nil => rfl
  | cons ch chs ih =>
    simp only [rowsVals, rowVals_digits (h ch (List.mem_cons_self _ _)),
      ih (fun x hx => h x (List.mem_cons_of_mem _ hx)), List.map_cons]

/-! ### Round trip of the digit encoding -/

theorem serializeCell_digit {v : Nat} (h : v ≤ 9) :
    serializeCell v = [Char.ofNat (v + 48)] := by
  interval_cases v <;> decide

theorem charToInt_digitChar {v : Nat} (h : v ≤ 9) :
    charToInt (Char.ofNat (v + 48)) = some v := by
  interval_cases v <;> decide

theorem rowChars_digits {row : List Nat} (h : ∀ v ∈ row, v ≤ 9) :
    (row.map serializeCell).flatten = row.map (fun v => Char.ofNat (v + 48)) := by
  induction row with
  | nil => rfl
  | cons v vs ih =>
    simp only [List.map_cons, List.flatten_cons,
      serializeCell_digit (h v (List.mem_cons_self _ _)),
      ih (fun w hw => h w (List.mem_cons_of_mem _ hw))]
    rfl

theorem chunks_flatten {k : Nat} (hk : k ≠ 0) :
    ∀ {rows : List (List Char)}, (∀ row ∈ rows, row.length = k) →
      chunks k rows.flatten = rows := by
  intro rows
  induction rows with
  | nil => intro _; rfl
  | cons row rest ih =>
    intro h
    rw [List.flatten_cons]
    have hrow : row.length = k := h row (List.mem_cons_self _ _)
    have hne : row ++ rest.flatten ≠ [] := by
      intro hx
      have hr0 : row = [] := (List.append_eq_nil.mp hx).1
      rw [hr0] at hrow
      simp at hrow
      exact hk hrow.symm
    rw [chunks_cons hne hk]
    congr 1
    · exact List.take_left' hrow
    · rw [List.drop_left' hrow]
      exact ih (fun w hw => h w (List.mem_cons_of_mem _ hw))

theorem rowVals_digitChars {row : List Nat} (h : ∀ v ∈ row, v ≤ 9) :
    rowVals (row.map (fun v => Char.ofNat (v + 48))) = some row := by
  induction row with
  | nil => rfl
  | cons v vs ih =>
    simp only [List.map_cons, rowVals,
      charToInt_digitChar (h v (List.mem_cons_self _ _)),
      ih (fun w hw => h w (List.mem_cons_of_mem _ hw))]

theorem rowsVals_digitChars {g : Grid} (h : ∀ row ∈ g, ∀ v ∈ row, v ≤ 9) :
    rowsVals (g.map (fun row => row.map (fun v => Char.ofNat (v + 48)))) =
      some g := by
  induction g with
  | nil => rfl
  | cons row rest ih =>
    simp only [List.map_cons, rowsVals,
      rowVals_digitChars (h row (List.mem_cons_self _ _)),
      ih (fun w hw => h w (List.mem_cons_of_mem _ hw))]

theorem deserialize_serialize {g : Grid} {k : Nat} (hk : 0 < k)
    (hlen : g.length = k) (hrows : ∀ row ∈ g, row.length = k)
    (hcells : ∀ row ∈ g, ∀ v ∈ row, v ≤ 9) :
    deserialize (serialize g) k = some g := by
  rw [deserialize, serialize]
  have hmap : g.map (fun row => (row.map serializeCell).flatten) =
      g.map (fun row => row.map (fun v => Char.ofNat (v + 48))) :=
    List.map_congr_left (fun row hrow => rowChars_digits (hcells row hrow))
  rw [hmap]
  have hchunks : chunks k
      ((g.map (fun row => row.map (fun v => Char.ofNat (v + 48)))).flatten) =
      g.map (fun row => row.map (fun v => Char.ofNat (v + 48))) := by
    apply chunks_flatten (by omega)
    intro row hrow
    rw [List.mem_map] at hrow
    obtain ⟨row0, hrow0, hmapped⟩ := hrow
    rw [← hmapped, List.length_map]
    exact hrows row0 hrow0
  rw [hchunks]
  exact rowsVals_digitChars hcells

/-! ### Validation lemmas -/

/-- A row that passes both per-row checks: a list of exactly `n` cells. -/
def RowOk (n : Nat) (row : PyRow) : Prop :=
  ∃ l, row = PyRow.cells l ∧ l.length = n

/-- The defect of one row, with the `isinstance` check before the length
check, matching the body of the row loop. -/
def rowDefect (n : Nat) : PyRow → Option ProblemDefect
  | PyRow.nonList => some ProblemDefect.notListOfLists
  | PyRow.cells l =>
    if l.length ≠ n then some ProblemDefect.notSquareGrid else none

theorem validateRows_ne_sizeDefect {n : Nat} :
    ∀ rows : List PyRow, validateRows n rows ≠ some ProblemDefect.sizeNotSquare := by
  intro rows
  induction rows with
  | nil => simp [validateRows]
  | cons row rest ih =>
    cases row with
    | nonList => simp [validateRows]
    | cells l =>
      simp only [validateRows]
      by_cases h : l.length ≠ n
      · rw [if_pos h]
        simp
      · rw [if_neg h]
        exact ih

theorem validateRows_none_iff {n : Nat} :
    ∀ rows : List PyRow,
      (validateRows n rows = none ↔ ∀ row ∈ rows, RowOk n row) := by
  intro rows
  induction rows with
  | nil => simp [validateRows]
  | cons row rest ih =>
    cases row with
    | nonList =>
      simp only [validateRows]
      constructor
      · intro h
        cases h
      · intro h
        obtain ⟨l, hl, _⟩ := h PyRow.nonList (List.mem_cons_self _ _)
        cases hl
    | cells l =>
      simp only [validateRows]
      by_cases h : l.length ≠ n
      · rw [if_pos h]
        constructor
        · intro hx
          cases hx
        · intro hx
          obtain ⟨l2, hl2, hlen⟩ := hx (PyRow.cells l) (List.mem_cons_self _ _)
          injection hl2 with hl2
          subst hl2
          exact absurd hlen h
      · rw [if_neg h, ih]
        constructor
        · intro hx row2 hrow2
          rcases List.mem_cons.mp hrow2 with rfl | hm
          · exact ⟨l, rfl, by omega⟩
          · exact hx row2 hm
        · intro hx row2 hrow2
          exact hx row2 (List.mem_cons_of_mem _ hrow2)

theorem validateRows_some_iff {n : Nat} {d : ProblemDefect} :
    ∀ rows : List PyRow,
      (validateRows n rows = some d ↔
        ∃ pre row suf, rows = pre ++ row :: suf ∧ (∀ q ∈ pre, RowOk n q) ∧
          rowDefect n row = some d) := by
  intro rows
  induction rows with
  | nil =>
    simp only [validateRows]
    constructor
    · intro h
      cases h
    · rintro ⟨pre, row, suf, heq, hok, hdef⟩
      exact absurd heq (by simp)
  | cons row0 rest ih =>
    constructor
    · intro h
      cases hrow0 : row0 with
      | nonList =>
        subst hrow0
        simp only [validateRows] at h
        refine ⟨[], PyRow.nonList, rest, rfl, by simp, ?_⟩
        simp only [rowDefect]
        injection h with h
        rw [h]
      | cells l =>
        subst hrow0
        simp only [validateRows] at h
        by_cases hl : l.length ≠ n
        · rw [if_pos hl] at h
          refine ⟨[], PyRow.cells l, rest, rfl, by simp, ?_⟩
          simp only [rowDefect, if_pos hl]
          injection h with h
          rw [h]
        · rw [if_neg hl] at h
          obtain ⟨pre, row, suf, heq, hok, hdef⟩ := (ih).mp h
          refine ⟨PyRow.cells l :: pre, row, suf, by rw [heq, List.cons_append], ?_, hdef⟩
          intro q hq
          rcases List.mem_cons.mp hq with rfl | hq2
          · exact ⟨l, rfl, by omega⟩
          · exact hok q hq2
    · rintro ⟨pre, row, suf, heq, hok, hdef⟩
      cases pre with
      | nil =>
        simp only [List.nil_append, List.cons.injEq] at heq
        obtain ⟨h1, h2⟩ := heq
        subst h1
        subst h2
        cases hrowb : row0 with
        | nonList =>
          subst hrowb
          simp only [rowDefect] at hdef
          simp only [validateRows]
          exact hdef
        | cells l =>
          subst hrowb
          simp only [rowDefect] at hdef
          by_cases hl : l.length ≠ n
          · rw [if_pos hl] at hdef
            simp only [validateRows, if_pos hl]
            exact hdef
          · rw [if_neg hl] at hdef
            cases hdef
      | cons p pre2 =>
        simp only [List.cons_append, List.cons.injEq] at heq
        obtain ⟨h1, h2⟩ := heq
        obtain ⟨l, hl, hlen⟩ := hok p (List.mem_cons_self _ _)
        subst h1
        subst hl
        simp only [validateRows, if_neg (show ¬l.length ≠ n by omega)]
        exact (ih).mpr ⟨pre2, row, suf, h2, fun q hq => hok q (List.mem_cons_of_mem _ hq), hdef⟩

/-! ### Claims -/

/-- C2: for every problem grid and every `solve` call that returns a
solution grid, each cell that held a non-zero value in the problem grid
holds that same value in the returned solution (clues are never
overwritten); the solver stores the problem unchanged and works on an
independent copy (in this pure model, `mkSolver` keeps the problem intact
and the search is a function of the copied solution grid only). -/
theorem C2_clues_preserved (g sol : Grid) (hsol : solveProblem g = some sol) :
    (mkSolver g).problem = g ∧
    (∀ r c, cell g r c ≠ 0 → cell sol r c = cell g r c) := by
  refine ⟨rfl, ?_⟩
  have hsolA := solveProblem_some_iff.mp hsol
  exact (solveAux_success_props _ g sol hsolA).2.1

theorem C2_witness :
    solveProblem [[1,0,0,0],[0,0,0,0],[0,0,0,0],[0,0,0,0]] =
      some [[1,2,3,4],[3,4,1,2],[2,1,4,3],[4,3,2,1]] ∧
    cell [[1,0,0,0],[0,0,0,0],[0,0,0,0],[0,0,0,0]] 0 0 ≠ 0 ∧
    cell [[1,2,3,4],[3,4,1,2],[2,1,4,3],[4,3,2,1]] 0 0 =
      cell [[1,0,0,0],[0,0,0,0],[0,0,0,0],[0,0,0,0]] 0 0 := by
  refine ⟨by decide, by decide, ?_⟩
  exact (C2_clues_preserved [[1,0,0,0],[0,0,0,0],[0,0,0,0],[0,0,0,0]]
    [[1,2,3,4],[3,4,1,2],[2,1,4,3],[4,3,2,1]] (by decide)).2 0 0 (by decide)

/-- C6: `solve` is deterministic: two fresh `Solver` instances built from
equal problem grids return identical results.  In this pure embedding the
search has no source of nondeterminism, so the two runs are equal term for
term. -/
theorem C6_deterministic (p1 p2 : Grid) (h : p1 = p2) :
    (mkSolver p1).solve = (mkSolver p2).solve := by
  rw [h]

theorem C6_witness :
    (mkSolver [[1,0,0,0],[0,0,0,0],[0,0,0,0],[0,0,0,0]]).solve =
      (mkSolver [[1,0,0,0],[0,0,0,0],[0,0,0,0],[0,0,0,0]]).solve :=
  C6_deterministic [[1,0,0,0],[0,0,0,0],[0,0,0,0],[0,0,0,0]]
    [[1,0,0,0],[0,0,0,0],[0,0,0,0],[0,0,0,0]] rfl

/-- C7: the search terminates on every square grid: fuel equal to the
number of empty cells plus one never runs out (`isSome`), the number of
empty cells is at most `size * size`, the result does not depend on any
larger fuel, each level draws from exactly `size` candidates, and writing
a candidate into the next empty cell decreases the count of empty cells
by exactly one. -/
theorem C7_terminates {g : Grid} {n b : Nat}
    (hn : n = g.length) (hb : b = intSqrt n) (hshape : Shape g n) :
    (solveAux n b (countEmpty g + 1) g).isSome = true ∧
    countEmpty g ≤ n * n ∧
    (∀ fuel, countEmpty g < fuel →
      solveAux n b fuel g = solveAux n b (countEmpty g + 1) g) ∧
    (List.range' 1 n).length = n ∧
    (∀ r c v, r < n → c < n → cell g r c = 0 → v ≠ 0 →
      countEmpty (setCell g r c v) + 1 = countEmpty g) := by
  refine ⟨?_, ?_, ?_, by simp, ?_⟩
  · have hne := @solveAux_ne_none n b (countEmpty g + 1) g hshape (by omega)
    exact Option.ne_none_iff_isSome.mp hne
  · have hbound : ∀ row ∈ g.map (fun row => row.count 0), row ≤ n := by
      intro x hx
      rw [List.mem_map] at hx
      obtain ⟨row, hrow, hxr⟩ := hx
      subst hxr
      calc row.count 0 ≤ row.length := List.count_le_length 0 row
      _ = n := hshape.2 row hrow
    have hsum := List.sum_le_card_nsmul (g.map (fun row => row.count 0)) n hbound
    rw [List.length_map] at hsum
    rw [countEmpty]
    calc (g.map (fun row => row.count 0)).sum ≤ g.length • n := hsum
    _ = n * n := by rw [smul_eq_mul, hshape.1]
  · intro fuel hf
    exact @solveAux_fuel_congr n b fuel g (countEmpty g + 1) hshape hf (by omega)
  · intro r c v hr hc hz hv
    exact countEmpty_setCell hshape hr hc hz hv

theorem C7_witness :
    (solveAux 4 2
      (countEmpty [[1,0,0,0],[0,1,0,0],[0,0,3,0],[0,0,0,4]] + 1)
      [[1,0,0,0],[0,1,0,0],[0,0,3,0],[0,0,0,4]]).isSome = true ∧
    countEmpty [[1,0,0,0],[0,1,0,0],[0,0,3,0],[0,0,0,4]] ≤ 16 := by
  have h := @C7_terminates [[1,0,0,0],[0,1,0,0],[0,0,3,0],[0,0,0,4]] 4 2
    (by decide) (by decide) (by decide)
  refine ⟨h.1, ?_⟩
  have h2 := h.2.1
  omega

/-- C8: round trip of the flat digit encoding: for every `k` by `k` grid
with `k > 0` whose cells are all in `0..9`, deserializing the serialized
string at size `k` returns the original grid. -/
theorem C8_round_trip {g : Grid} {k : Nat} (hk : 0 < k)
    (hlen : g.length = k) (hrows : ∀ row ∈ g, row.length = k)
    (hcells : ∀ row ∈ g, ∀ v ∈ row, v ≤ 9) :
    deserialize (serialize g) k = some g :=
  deserialize_serialize hk hlen hrows hcells

theorem C8_witness : deserialize (serialize [[1,0],[2,3]]) 2 = some [[1,0],[2,3]] :=
  C8_round_trip (by decide) (by decide) (by decide) (by decide)

/-- C1 counterexample: the claim quantifies over every problem grid, but a
fully filled grid with duplicated clues is returned unchanged by `solve`
even though it violates row uniqueness: the all-ones 4 by 4 grid is a
data-model grid (square, size a perfect square, cells in `0..size`), the
call returns it, and its first row does not contain the value 2 at all. -/
theorem C1_counterexample :
    Shape [[1,1,1,1],[1,1,1,1],[1,1,1,1],[1,1,1,1]] 4 ∧
    intSqrt 4 * intSqrt 4 = 4 ∧
    cellsInRange 4 [[1,1,1,1],[1,1,1,1],[1,1,1,1],[1,1,1,1]] ∧
    solveProblem [[1,1,1,1],[1,1,1,1],[1,1,1,1],[1,1,1,1]] =
      some [[1,1,1,1],[1,1,1,1],[1,1,1,1],[1,1,1,1]] ∧
    (rowList [[1,1,1,1],[1,1,1,1],[1,1,1,1],[1,1,1,1]] 0).count 2 = 0 := by
  refine ⟨by decide, by decide, by decide, by decide, by decide⟩

/-- C1 (amended): for every problem grid whose clues are themselves
consistent — no non-zero value repeated in a row, a column, or a box of
the given cells — if `solve` returns a grid then that grid is fully filled
with values in `1..size` and every row, column and box contains each value
in `1..size` exactly once. -/
theorem C1_solution_valid {g sol : Grid} {n b : Nat}
    (hn : n = g.length) (hb : b = intSqrt n) (hshape : Shape g n)
    (hsq : b * b = n) (hrange : cellsInRange n g) (hcons : consistent n b g)
    (hsol : solveProblem g = some sol) :
    Shape sol n ∧
    (∀ r, r < n → ∀ c, c < n → 1 ≤ cell sol r c ∧ cell sol r c ≤ n) ∧
    (∀ r, r < n → ∀ v, 1 ≤ v → v ≤ n → (rowList sol r).count v = 1) ∧
    (∀ c, c < n → ∀ v, 1 ≤ v → v ≤ n → (colList sol n c).count v = 1) ∧
    (∀ r, r < n → ∀ c, c < n → ∀ v, 1 ≤ v → v ≤ n →
      (boxList sol b r c).count v = 1) := by
  rcases Nat.eq_zero_or_pos b with hb0 | hbpos
  · have hn0 : n = 0 := by
      subst hb0
      omega
    have hg : g = [] := List.eq_nil_of_length_eq_zero (by omega)
    subst hg
    have hterm : solveProblem [] = some [] := solveProblem_terminal (by rfl)
    rw [hterm] at hsol
    injection hsol with hsol
    subst hsol
    refine ⟨⟨by simpa using hn0.symm, by simp⟩, ?_, ?_, ?_, ?_⟩ <;>
      intro r hr <;> omega
  · have hsep := (consistent_iff_cellsSep hshape hbpos hsq).mp hcons
    obtain ⟨hs2, hfull, hsep2, hrange2, _⟩ :=
      solveProblem_success hn hb hshape hsq hrange hsep hsol
    obtain ⟨hrowc, hcolc, hboxc⟩ := full_grid_counts hs2 hsq hbpos hfull hrange2 hsep2
    refine ⟨hs2, ?_, hrowc, hcolc, hboxc⟩
    intro r hr c hc
    have h1 := hfull r hr c hc
    have h2 := hrange2 r hr c hc
    omega

theorem C1_witness :
    (rowList [[1,2,3,4],[3,4,1,2],[2,1,4,3],[4,3,2,1]] 0).count 3 = 1 ∧
    (colList [[1,2,3,4],[3,4,1,2],[2,1,4,3],[4,3,2,1]] 4 0).count 2 = 1 ∧
    (boxList [[1,2,3,4],[3,4,1,2],[2,1,4,3],[4,3,2,1]] 2 0 0).count 4 = 1 := by
  have h := @C1_solution_valid [[1,0,0,0],[0,0,0,0],[0,0,0,0],[0,0,0,0]]
    [[1,2,3,4],[3,4,1,2],[2,1,4,3],[4,3,2,1]] 4 2 (by decide) (by decide)
    (by decide) (by decide) (by decide) (by decide) (by decide)
  exact ⟨h.2.2.1 0 (by decide) 3 (by decide) (by decide),
    h.2.2.2.1 0 (by decide) 2 (by decide) (by decide),
    h.2.2.2.2 0 (by decide) 0 (by decide) 4 (by decide) (by decide)⟩

/-- C9 counterexample: the claim asserts the consistency of every filled
cell in every state reachable during the recursion, with no precondition;
but the initial state is reachable, and a problem whose clues already
duplicate a value in a row refutes the invariant there. -/
theorem C9_counterexample :
    Reaches 4 2 [[1,1,0,0],[0,0,0,0],[0,0,0,0],[0,0,0,0]]
      [[1,1,0,0],[0,0,0,0],[0,0,0,0],[0,0,0,0]] ∧
    ¬ consistent 4 2 [[1,1,0,0],[0,0,0,0],[0,0,0,0],[0,0,0,0]] :=
  ⟨Reaches.refl _, by decide⟩

/-- C9 (amended): provided the problem grid itself is consistent, every
state reachable during the recursion of `solve` keeps every non-zero cell
consistent — its value occurs exactly once in its row, its column and its
box.  Every tentative write in a reachable state passes `_is_valid_move`
by construction of `Reaches`, and every grid returned by the search is
reachable. -/
theorem C9_search_invariant {g : Grid} {n b : Nat}
    (hn : n = g.length) (hb : b = intSqrt n) (hshape : Shape g n)
    (hsq : b * b = n) (hrange : cellsInRange n g) (hcons : consistent n b g) :
    (∀ g2, Reaches n b g g2 → consistent n b g2) ∧
    (∀ sol, solveProblem g = some sol → Reaches n b g sol) := by
  constructor
  · intro g2 hre
    rcases Nat.eq_zero_or_pos b with hb0 | hbpos
    · cases hre with
      | refl => exact hcons
      | step g r c v g2 hne hv hvalid hre2 =>
        have hf := nextEmptyCell_some_facts hne
        have hn0 : n = 0 := by
          subst hb0
          omega
        omega
    · have hsep := (consistent_iff_cellsSep hshape hbpos hsq).mp hcons
      obtain ⟨hs2, hsep2, hrange2⟩ := reaches_invariant hsq hre hshape hsep hrange
      exact (consistent_iff_cellsSep hs2 hbpos hsq).mpr hsep2
  · intro sol hsol
    have hsolA := solveProblem_some_iff.mp hsol
    rw [← hn] at hsolA
    rw [← hb] at hsolA
    exact (solveAux_success_props _ g sol hsolA).2.2.2

theorem C9_witness :
    consistent 4 2 (setCell [[1,0,0,0],[0,0,0,0],[0,0,0,0],[0,0,0,0]] 0 1 2) := by
  have h := @C9_search_invariant [[1,0,0,0],[0,0,0,0],[0,0,0,0],[0,0,0,0]] 4 2
    (by decide) (by decide) (by decide) (by decide) (by decide) (by decide)
  exact h.1 (setCell [[1,0,0,0],[0,0,0,0],[0,0,0,0],[0,0,0,0]] 0 1 2)
    (Reaches.step _ 0 1 2 _ (by decide) (by decide) (by decide) (Reaches.refl _))

/-- C5 counterexample: a grid with two identical non-zero clue values in a
row need not end in failure: when the grid is already fully filled,
`solve` finds no empty cell and returns the conflicting grid itself
rather than the failure signal. -/
theorem C5_counterexample :
    cell [[1,1,1,1],[2,2,2,2],[3,3,3,3],[4,4,4,4]] 0 0 = 1 ∧
    cell [[1,1,1,1],[2,2,2,2],[3,3,3,3],[4,4,4,4]] 0 1 = 1 ∧
    solveProblem [[1,1,1,1],[2,2,2,2],[3,3,3,3],[4,4,4,4]] =
      some [[1,1,1,1],[2,2,2,2],[3,3,3,3],[4,4,4,4]] := by
  refine ⟨by decide, by decide, by decide⟩

/-- C5 (amended): with a duplicated non-zero value in one row of the
clues, a `solve` call with `validate=false` never repairs or removes the
conflict: either it returns the failure signal, or the returned grid
still holds the identical value in both cells, so that the value occurs
at least twice in that row and the result violates row uniqueness. -/
theorem C5_row_conflict {g sol : Grid} {n r c1 c2 v : Nat}
    (hn : n = g.length) (hshape : Shape g n)
    (hr : r < n) (hc1 : c1 < n) (hc2 : c2 < n) (hc12 : c1 ≠ c2)
    (h1 : cell g r c1 = v) (h2 : cell g r c2 = v) (hv : v ≠ 0)
    (hsol : solveProblem g = some sol) :
    cell sol r c1 = v ∧ cell sol r c2 = v ∧ 2 ≤ (rowList sol r).count v := by
  have hsolA := solveProblem_some_iff.mp hsol
  obtain ⟨_, hpres, hshape2, _⟩ := solveAux_success_props _ g sol hsolA
  have hs2 : Shape sol n := by
    subst hn
    exact hshape2 hshape
  have e1 : cell sol r c1 = v := by
    rw [hpres r c1 (by rw [h1]; exact hv)]
    exact h1
  have e2 : cell sol r c2 = v := by
    rw [hpres r c2 (by rw [h2]; exact hv)]
    exact h2
  refine ⟨e1, e2, ?_⟩
  rw [rowList_eq_map hs2 hr]
  exact two_le_count_map (List.mem_range.mpr hc1) (List.mem_range.mpr hc2)
    hc12 e1 e2

theorem C5_witness :
    cell [[1,1,1,1],[2,2,2,2],[3,3,3,3],[4,4,4,4]] 0 0 = 1 ∧
    2 ≤ (rowList [[1,1,1,1],[2,2,2,2],[3,3,3,3],[4,4,4,4]] 0).count 1 := by
  have h := @C5_row_conflict [[1,1,1,1],[2,2,2,2],[3,3,3,3],[4,4,4,4]]
    [[1,1,1,1],[2,2,2,2],[3,3,3,3],[4,4,4,4]] 4 0 0 1 1
    (by decide) (by decide) (by decide) (by decide) (by decide) (by decide)
    (by decide) (by decide) (by decide) (by decide)
  exact ⟨by decide, h.2.2⟩

/-- C3 counterexample: the claim asserts that when the grid has no empty
cell the returned terminal grid is fully and validly filled; the all-twos
4 by 4 grid has no empty cell and is returned unchanged, yet its first
row contains the value 1 zero times, so it is not validly filled. -/
theorem C3_counterexample :
    nextEmptyCell [[2,2,2,2],[2,2,2,2],[2,2,2,2],[2,2,2,2]] 4 = none ∧
    solveProblem [[2,2,2,2],[2,2,2,2],[2,2,2,2],[2,2,2,2]] =
      some [[2,2,2,2],[2,2,2,2],[2,2,2,2],[2,2,2,2]] ∧
    (rowList [[2,2,2,2],[2,2,2,2],[2,2,2,2],[2,2,2,2]] 0).count 1 = 0 := by
  refine ⟨by decide, by decide, by decide⟩

/-- C3 (amended): `solve` selects exactly the first empty cell in
row-major order (characterized below by the row-major strict order
`lexLt`), returns the solution grid unchanged when no empty cell exists,
and tries the candidates `1..size` in ascending order, propagating the
first recursive success without trying further candidates; the terminal
grid with no empty cell is fully filled in the scanned range, and it is
validly filled provided the given clues are in range and consistent. -/
theorem C3_search_order {g : Grid} {n b : Nat}
    (hn : n = g.length) (hb : b = intSqrt n) (hshape : Shape g n) :
    (∀ r c : Nat, nextEmptyCell g n = some (r, c) ↔
      (r < n ∧ c < n ∧ cell g r c = 0 ∧
        ∀ r2 c2, r2 < n → c2 < n → lexLt (r2, c2) (r, c) → cell g r2 c2 ≠ 0)) ∧
    (nextEmptyCell g n = none → solveProblem g = some g) ∧
    (∀ r c v sol, nextEmptyCell g n = some (r, c) → v ∈ List.range' 1 n →
      isValidMove n b g r c v = true →
      solveProblem (setCell g r c v) = some sol →
      (∀ w, 1 ≤ w → w < v → isValidMove n b g r c w = false ∨
        solveProblem (setCell g r c w) = none) →
      solveProblem g = some sol) ∧
    (nextEmptyCell g n = none →
      (∀ r, r < n → ∀ c, c < n → cell g r c ≠ 0) ∧
      (b * b = n → cellsInRange n g → consistent n b g →
        (∀ r, r < n → ∀ v, 1 ≤ v → v ≤ n → (rowList g r).count v = 1) ∧
        (∀ c, c < n → ∀ v, 1 ≤ v → v ≤ n → (colList g n c).count v = 1) ∧
        (∀ r, r < n → ∀ c, c < n → ∀ v, 1 ≤ v → v ≤ n →
          (boxList g b r c).count v = 1))) := by
  refine ⟨fun r c => nextEmptyCell_some_iff, ?_, ?_, ?_⟩
  · intro hnone
    rw [hn] at hnone
    exact solveProblem_terminal hnone
  · intro r c v sol hne hv hvalid hsolset hprev
    have hf := nextEmptyCell_some_facts hne
    have hv1 : 1 ≤ v := (List.mem_range'_1.mp hv).1
    have hvn : v < 1 + n := (List.mem_range'_1.mp hv).2
    rw [solveProblem_step hn hb hne]
    have hdecomp : List.range' 1 n = List.range' 1 (v - 1) ++ v :: List.range' (v + 1) (n - v) := by
      have h1 : v :: List.range' (v + 1) (n - v) = List.range' v (n - v + 1) := by
        rw [List.range'_succ]
      rw [h1]
      have h2 : List.range' 1 (v - 1) ++ List.range' (1 + (v - 1)) (n - v + 1) =
          List.range' 1 ((n - v + 1) + (v - 1)) := List.range'_append_1 1 (v - 1) (n - v + 1)
      have h3 : 1 + (v - 1) = v := by omega
      have h4 : (n - v + 1) + (v - 1) = n := by omega
      rw [h3, h4] at h2
      exact h2.symm
    rw [hdecomp]
    rw [tryNumbers_first hvalid ?hat ?hbefore]
    · rfl
    case hat =>
      rw [solveProblem_step_attempts hn hb hshape hne hv, hsolset]
    case hbefore =>
      intro w hw hvw
      have hw1 : 1 ≤ w := (List.mem_range'_1.mp hw).1
      have hwv : w < v := by
        have := (List.mem_range'_1.mp hw).2
        omega
      have hwin : w ∈ List.range' 1 n := by
        rw [List.mem_range'_1]
        omega
      rcases hprev w hw1 hwv with hbad | hfail
      · rw [hbad] at hvw
        cases hvw
      · rw [solveProblem_step_attempts hn hb hshape hne hwin, hfail]
  · intro hnone
    have hfull := nextEmptyCell_none_iff.mp hnone
    refine ⟨hfull, ?_⟩
    intro hsq hrange hcons
    rcases Nat.eq_zero_or_pos b with hb0 | hbpos
    · have hn0 : n = 0 := by
        subst hb0
        omega
      refine ⟨?_, ?_, ?_⟩ <;> intro x hx <;> omega
    · have hsep := (consistent_iff_cellsSep hshape hbpos hsq).mp hcons
      exact full_grid_counts hshape hsq hbpos hfull hrange hsep

theorem C3_witness :
    solveProblem [[1,0,0,0],[0,0,0,0],[0,0,0,0],[0,0,0,0]] =
      some [[1,2,3,4],[3,4,1,2],[2,1,4,3],[4,3,2,1]] := by
  have h := @C3_search_order [[1,0,0,0],[0,0,0,0],[0,0,0,0],[0,0,0,0]] 4 2
    (by decide) (by decide) (by decide)
  apply h.2.2.1 0 1 2 [[1,2,3,4],[3,4,1,2],[2,1,4,3],[4,3,2,1]]
    (by decide) (by decide) (by decide) (by decide)
  intro w h1 h2
  have hw : w = 1 := by omega
  subst hw
  left
  decide

/-- C4: `solve` reports a problem defect only when called with
`validate=true`; the reported defect is exactly the one found by
`_validate_problem`, whose checks run in order: the perfect-square check
on the size first, then for each row the `isinstance` check before the
length check, the first offending row winning; a structurally valid
problem never errors, however unsolvable (the search then returns the
failure signal inside `Except.ok`).  Recursive calls run `solveAux`,
which contains no validation. -/
theorem C4_validation (p : List PyRow) :
    (∀ e, solveCall p false ≠ Except.error e) ∧
    (∀ e, solveCall p true = Except.error e ↔ validateProblem p = some e) ∧
    (validateProblem p = some ProblemDefect.sizeNotSquare ↔
      intSqrt p.length * intSqrt p.length ≠ p.length) ∧
    (intSqrt p.length * intSqrt p.length = p.length →
      ∀ d, validateProblem p = some d ↔
        ∃ pre row suf, p = pre ++ row :: suf ∧ (∀ q ∈ pre, RowOk p.length q) ∧
          rowDefect p.length row = some d) ∧
    (validateProblem p = none ↔
      (intSqrt p.length * intSqrt p.length = p.length ∧
        ∀ row ∈ p, RowOk p.length row)) ∧
    (validateProblem p = none →
      solveCall p true = Except.ok (solveProblem (p.map rowCells))) := by
  refine ⟨?_, ?_, ?_, ?_, ?_, ?_⟩
  · intro e
    simp [solveCall]
  · intro e
    simp only [solveCall, if_true]
    cases hv : validateProblem p with
    | none => simp
    | some d => simp
  · rw [validateProblem]
    by_cases hcond : intSqrt p.length * intSqrt p.length ≠ p.length
    · rw [if_pos hcond]
      simp [hcond]
    · rw [if_neg hcond]
      constructor
      · intro h
        exact absurd h (validateRows_ne_sizeDefect p)
      · intro h
        exact absurd h hcond
  · intro hsq d
    rw [validateProblem, if_neg (by omega)]
    exact validateRows_some_iff p
  · rw [validateProblem]
    by_cases hcond : intSqrt p.length * intSqrt p.length ≠ p.length
    · rw [if_pos hcond]
      constructor
      · intro h
        cases h
      · rintro ⟨h1, _⟩
        exact absurd h1 hcond
    · rw [if_neg hcond, validateRows_none_iff p]
      constructor
      · intro h
        exact ⟨by omega, h⟩
      · rintro ⟨_, h⟩
        exact h
  · intro hnone
    simp only [solveCall, if_true, hnone]

theorem C4_witness :
    solveCall [PyRow.cells [5]] true = Except.ok (some [[5]]) ∧
    validateProblem [PyRow.nonList] = some ProblemDefect.notListOfLists := by
  constructor
  · have h := (C4_validation [PyRow.cells [5]]).2.2.2.2.2 (by decide)
    rw [h]
    rfl
  · have h := (C4_validation [PyRow.nonList]).2.2.2.1 (by decide)
      ProblemDefect.notListOfLists
    rw [h]
    exact ⟨[], PyRow.nonList, [], rfl, by simp, rfl⟩

/-! ### C10 helpers -/

theorem getD_map_rows {l : List (List Char)} {f : List Char → List Nat}
    (hf : f [] = []) (r : Nat) : (l.map f).getD r [] = f (l.getD r []) := by
  rw [List.getD_eq_getElem?_getD, List.getD_eq_getElem?_getD, List.getElem?_map]
  cases l[r]? with
  | none => simp [hf]
  | some x => simp

theorem ceil_div_exact {L k : Nat} (hk : 0 < k) (hdvd : L % k = 0) :
    (L + k - 1) / k = L / k := by
  have hdm := Nat.div_add_mod L k
  rw [hdvd, Nat.add_zero] at hdm
  have h1 : L + k - 1 = k * (L / k) + (k - 1) := by omega
  rw [h1, Nat.mul_add_div hk]
  have h2 : (k - 1) / k = 0 := Nat.div_eq_of_lt (by omega)
  rw [h2]
  omega

theorem ceil_div_inexact {L k : Nat} (hk : 0 < k) (hndvd : L % k ≠ 0) :
    (L + k - 1) / k = L / k + 1 := by
  have hdm := Nat.div_add_mod L k
  have hmod := Nat.mod_lt L hk
  have h1 : L + k - 1 = k * (L / k) + (L % k + k - 1) := by omega
  rw [h1, Nat.mul_add_div hk]
  have h2 : (L % k + k - 1) / k = 1 := by
    apply Nat.div_eq_of_lt_le <;> omega
  rw [h2]

theorem deser_grid_length {s : List Char} {k : Nat} (hk : k ≠ 0) :
    ((chunks k s).map (fun ch => ch.map (fun c => c.toNat - '0'.toNat))).length =
      (s.length + k - 1) / k := by
  rw [List.length_map]
  exact length_chunks hk s.length s (Nat.le_refl _)

theorem deser_grid_row {s : List Char} {k : Nat} (hk : k ≠ 0) (r : Nat) :
    rowList ((chunks k s).map (fun ch => ch.map (fun c => c.toNat - '0'.toNat))) r =
      ((s.drop (r * k)).take k).map (fun c => c.toNat - '0'.toNat) := by
  rw [rowList, getD_map_rows rfl r, chunks_getD hk s.length s (Nat.le_refl _) r]

theorem deser_last_row {s : List Char} {k : Nat} {g : Grid} (hk : 0 < k)
    (hlenG : g.length = (s.length + k - 1) / k)
    (hrowsG : ∀ r, rowList g r =
      ((s.drop (r * k)).take k).map (fun c => c.toNat - '0'.toNat))
    (hmod : s.length % k ≠ 0) :
    (rowList g (g.length - 1)).length = s.length % k ∧
    (rowList g (g.length - 1)).length < k := by
  have hmodlt := Nat.mod_lt s.length hk
  have hdm := Nat.div_add_mod s.length k
  have hceil := ceil_div_inexact hk hmod
  rw [hrowsG, List.length_map, List.length_take, List.length_drop]
  rw [hlenG, hceil]
  have hsub : (s.length / k + 1 - 1) * k = k * (s.length / k) := by
    rw [Nat.add_sub_cancel, Nat.mul_comm]
  rw [hsub]
  have hrem : s.length - k * (s.length / k) = s.length % k := by omega
  rw [hrem]
  constructor
  · exact Nat.min_eq_right (by omega)
  · rw [Nat.min_eq_right (by omega)]
    omega

theorem deser_square_iff {s : List Char} {k : Nat} {g : Grid} (hk : 0 < k)
    (hlenG : g.length = (s.length + k - 1) / k)
    (hrowsG : ∀ r, rowList g r =
      ((s.drop (r * k)).take k).map (fun c => c.toNat - '0'.toNat)) :
    (g.length = k ∧ ∀ row ∈ g, row.length = k) ↔ s.length = k * k := by
  constructor
  · rintro ⟨hglen, hrows⟩
    by_cases hmod : s.length % k = 0
    · have hceil := ceil_div_exact hk hmod
      rw [hlenG] at hglen
      rw [hceil] at hglen
      have hdm := Nat.div_add_mod s.length k
      rw [hglen, hmod] at hdm
      have hkk : k * k + 0 = s.length := hdm
      omega
    · obtain ⟨hlastlen, hlastlt⟩ := deser_last_row hk hlenG hrowsG hmod
      have hG1 : 1 ≤ g.length := by
        rw [hglen]
        omega
      have hmem : rowList g (g.length - 1) ∈ g := by
        rw [rowList, List.getD_eq_getElem?_getD,
          List.getElem?_eq_getElem (by omega), Option.getD_some]
        exact List.getElem_mem _
      have hcontra := hrows _ hmem
      omega
  · intro hL
    have hmod : s.length % k = 0 := by
      rw [hL]
      exact Nat.mul_mod_left k k
    have hceil := ceil_div_exact hk hmod
    have hdiv : s.length / k = k := by
      rw [hL]
      exact Nat.mul_div_cancel k hk
    constructor
    · rw [hlenG, hceil, hdiv]
    · intro row hrow
      rw [List.mem_iff_getElem] at hrow
      obtain ⟨i, hi, hrow⟩ := hrow
      have hgi : rowList g i = row := by
        rw [rowList, List.getD_eq_getElem?_getD, List.getElem?_eq_getElem hi,
          Option.getD_some, hrow]
      rw [← hgi, hrowsG i, List.length_map, List.length_take, List.length_drop]
      have hik : i < k := by
        rw [hlenG, hceil, hdiv] at hi
        exact hi
      have hexp : (i + 1) * k = i * k + k := Nat.succ_mul i k
      have hle : i * k + k ≤ k * k := by
        rw [← hexp]
        exact Nat.mul_le_mul_right k hik
      rw [hL]
      exact Nat.min_eq_left (by omega)

/-- C10: `deserialize` performs no validation of the string length
against the declared size: for every digit string `s` and every `k > 0`
it returns a grid of `ceil(len(s)/k)` rows, row `r` holding the values of
characters `r*k .. r*k+k-1`; when `k` does not divide the length the last
row is shorter than `k`, and the result is a square `k` by `k` grid
exactly when the length is `k * k` — malformed lengths silently give a
ragged or non-square grid, never an error. -/
theorem C10_no_length_validation {s : List Char} {k : Nat} (hk : 0 < k)
    (hdigits : ∀ c ∈ s, '0' ≤ c ∧ c ≤ '9') :
    ∃ g : Grid, deserialize s k = some g ∧
      g.length = (s.length + k - 1) / k ∧
      (∀ r, rowList g r =
        ((s.drop (r * k)).take k).map (fun c => c.toNat - '0'.toNat)) ∧
      (s.length % k ≠ 0 →
        (rowList g (g.length - 1)).length = s.length % k ∧
        (rowList g (g.length - 1)).length < k) ∧
      ((g.length = k ∧ ∀ row ∈ g, row.length = k) ↔ s.length = k * k) := by
  have hkne : k ≠ 0 := by omega
  have hchd : ∀ ch ∈ chunks k s, ∀ c ∈ ch, '0' ≤ c ∧ c ≤ '9' := by
    intro ch hch c hc
    exact hdigits c (mem_chunks_subset hkne s.length s (Nat.le_refl _) ch hch c hc)
  have hdeser : deserialize s k =
      some ((chunks k s).map (fun ch => ch.map (fun c => c.toNat - '0'.toNat))) := by
    rw [deserialize]
    exact rowsVals_digits hchd
  have hlenG := @deser_grid_length s k hkne
  have hrowsG := @deser_grid_row s k hkne
  exact ⟨_, hdeser, hlenG, hrowsG, deser_last_row hk hlenG hrowsG,
    deser_square_iff hk hlenG hrowsG⟩

theorem C10_witness :
    ∃ g : Grid, deserialize "12345".data 2 = some g ∧
      g.length = ("12345".data.length + 2 - 1) / 2 ∧
      (∀ r, rowList g r =
        (("12345".data.drop (r * 2)).take 2).map (fun c => c.toNat - '0'.toNat)) ∧
      ("12345".data.length % 2 ≠ 0 →
        (rowList g (g.length - 1)).length = "12345".data.length % 2 ∧
        (rowList g (g.length - 1)).length < 2) ∧
      ((g.length = 2 ∧ ∀ row ∈ g, row.length = 2) ↔
        "12345".data.length = 2 * 2) :=
  C10_no_length_validation (by decide) (by decide)
